import Mathlib

/-!
# Verification of the MCP IPC core of `gpui-component`

Shallow embedding of `crates/ui/src/mcp.rs` (log ring buffer, request/response
correlation, key-chord construction, element tree builder, `get_element` lookup,
screenshot stub) together with proofs of the specification claims.

Strings are modelled by Lean `String`; Rust byte-level string operations
(`starts_with`, `ends_with`, `len`, `as_bytes().get(i)`, `cmp`) are modelled at the
`List Char` level, which agrees with the byte level on UTF-8 for all operations used
here (UTF-8 byte order equals code-point order, and byte prefixes/suffixes of valid
strings fall on character boundaries).  `HashMap` is modelled by an association list
with insert-overwrite semantics; only `insert`, `get`, `get_mut`, `remove` and
`contains_key` are used by the source, so iteration order never matters.
-/

namespace Mcp

/-- Shallow embedding of `serde_json::Value` as used by the handlers we verify
(numbers appearing in those handlers are integers). -/
inductive Json where
  | null
  | bool (b : Bool)
  | num (n : Int)
  | str (s : String)
  | arr (elems : List Json)
  | obj (fields : List (String × Json))
deriving Repr

/-- Field lookup in a JSON object. -/
def Json.getField (j : Json) (k : String) : Option Json :=
  match j with
  | .obj fields => (fields.find? (fun p => p.1 == k)).map (·.2)
  | _ => none

/-! ## Log ring buffer (mcp.rs 29-62) -/

/-- `MAX_LOG_ENTRIES` (mcp.rs line 30). -/
def MAX_LOG_ENTRIES : Nat := 500

/-- One call of `mcp_log` (mcp.rs 55-62).  The `VecDeque` is modelled as a list whose
head is the front: `pop_front` drops the head, `push_back` appends at the end.
If the buffer is at (or above) capacity the oldest entry is evicted first, then the
new message is appended. -/
def mcp_log (buffer : List String) (message : String) : List String :=
  if MAX_LOG_ENTRIES ≤ buffer.length then buffer.tail ++ [message]
  else buffer ++ [message]

/-! ## Requests, responses and correlation (mcp.rs 132-187) -/

/-- `IpcRequest` from `gpui_mcp_protocol`. -/
structure IpcRequest where
  id : String
  method : String
  params : Json
deriving Repr

/-- `IpcResponse` from `gpui_mcp_protocol`: `result` is `Ok(Value)` or `Err(String)`. -/
structure IpcResponse where
  id : String
  result : Except String Json
deriving Repr

/-- mcp.rs 183-186: `handle_request` pairs the dispatch result with the request's own
id (`id: request.id.clone()`), whatever the result is. -/
def handle_request_response (request : IpcRequest) (result : Except String Json) : IpcResponse :=
  { id := request.id, result := result }

/-- mcp.rs 151-157: the response `handle_ipc_connection` writes back for one request:
the reply received from the main thread if it arrives within the 10-second window,
otherwise the synthesized timeout response, which is built with an **empty** id. -/
def connection_reply (received : Option IpcResponse) : IpcResponse :=
  match received with
  | some r => r
  | none => { id := "", result := .error "Request timeout" }

/-! ## Key chord construction (mcp.rs 250-264) -/

/-- The modifier flags of a `KeyEvent`. -/
structure Modifiers where
  ctrl : Bool
  alt : Bool
  shift : Bool
  meta : Bool
deriving Repr, DecidableEq

/-- mcp.rs 250-264: the keystroke string is built by appending, in this fixed order,
`ctrl-`, `alt-`, `shift-`, `cmd-` (for the meta modifier) for each enabled modifier,
followed by the key. -/
def keystroke_str (modifiers : Modifiers) (key : String) : String :=
  let s := ""
  let s := if modifiers.ctrl then s ++ "ctrl-" else s
  let s := if modifiers.alt then s ++ "alt-" else s
  let s := if modifiers.shift then s ++ "shift-" else s
  let s := if modifiers.meta then s ++ "cmd-" else s
  s ++ key

/-! ## Screenshot stub (mcp.rs 616-627) -/

/-- mcp.rs 616-627: `handle_take_screenshot` ignores its parameters and always
returns `Ok` with the fixed "not supported" payload. -/
def handle_take_screenshot (_params : Json) : Except String Json :=
  .ok (.obj
    [("error", .str "Screenshots are not yet supported (requires test-support feature)"),
     ("png_base64", .str ""),
     ("width", .num 0),
     ("height", .num 0),
     ("highlighted_elements", .arr [])])

/-! ## Element tree data model (mcp.rs 394-453) -/

/-- The fields of `gpui::InspectorElementInfo` read by the tree builder.  The
geometry fields (`bounds`, `content_mask`), being `f32` data copied verbatim and
never examined by any branch of the algorithm, are omitted from the embedding. -/
structure InspectorElementInfo where
  global_id : String
  instance_id : Nat
  source_location : String
deriving Repr, DecidableEq

/-- The fields of `protocol::UiElement` relevant to the verified claims: the
composite id, the element type label, the (recursive) children and the source
location.  The remaining fields (`bounds`, `visible = true`, `properties`,
`style_json = None`, `content_size`) are constants or verbatim copies of geometry
never examined by the algorithm. -/
structure UiElement where
  id : String
  element_type : String
  children : List UiElement
  source_location : Option String
deriving Repr

instance : Inhabited UiElement := ⟨⟨"", "", [], none⟩⟩

/-! ## Character-level string helpers -/

/-- Splits a character list at every occurrence of `sep`; the model of Rust
`str::split(char)` (the result always has at least one piece, pieces may be empty). -/
def splitChar (sep : Char) : List Char → List (List Char)
  | [] => [[]]
  | c :: cs =>
    match splitChar sep cs with
    | [] => [[c]]
    | h :: t => if c = sep then [] :: h :: t else (c :: h) :: t

/-- mcp.rs 414-420: the element type label is the last `/`-separated component of the
source location, truncated at its first `.` (`rsplit` and `split` always yield at
least one piece, so the `"Element"` default is only a formal fallback). -/
def element_type_of (source_location : String) : String :=
  match (splitChar '/' source_location.data).getLast? with
  | none => "Element"
  | some filename =>
    match (splitChar '.' filename).head? with
    | none => "Element"
    | some t => String.mk t

/-- Number of `'.'` characters in a string (Rust `s.matches('.').count()`). -/
def dotCount (s : String) : Nat := s.data.count '.'

/-- mcp.rs 495-498: `candidate` is a strict dot-bounded ancestor path of `child`:
`child` starts with `candidate`, is strictly longer, and the character right after
the `candidate` part is `'.'`. -/
def dotAnc (candidate child : String) : Bool :=
  candidate.data.isPrefixOf child.data &&
  decide (candidate.data.length < child.data.length) &&
  (child.data[candidate.data.length]? == some '.')

/-- Lexicographic strict order on character lists by code point; agrees with Rust's
byte-wise `str` ordering on UTF-8. -/
def charsLt : List Char → List Char → Bool
  | [], [] => false
  | [], _ :: _ => true
  | _ :: _, [] => false
  | a :: as, b :: bs =>
    if a.toNat < b.toNat then true
    else if b.toNat < a.toNat then false
    else charsLt as bs

/-- Strict string order: the model of `String::cmp` being `Ordering::Less`. -/
def strLt (a b : String) : Bool := charsLt a.data b.data

/-! ## Association-list model of `HashMap<String, V>` -/

/-- `HashMap::get`. -/
def alGet (m : List (String × α)) (k : String) : Option α :=
  match m with
  | [] => none
  | (k', v) :: rest => if k' = k then some v else alGet rest k

/-- `HashMap::insert`: overwrites the binding if the key is present. -/
def alInsert (m : List (String × α)) (k : String) (v : α) : List (String × α) :=
  match m with
  | [] => [(k, v)]
  | (k', v') :: rest => if k' = k then (k, v) :: rest else (k', v') :: alInsert rest k v

/-- `HashMap::remove` (the removed value, if any, is recovered with `alGet`). -/
def alRemove (m : List (String × α)) (k : String) : List (String × α) :=
  match m with
  | [] => []
  | (k', v') :: rest => if k' = k then rest else (k', v') :: alRemove rest k

/-! ## Flat entries and the processing order (mcp.rs 400-460) -/

/-- mcp.rs 411: the composite id `window_id/global_id[instance_id]`. -/
def fullId (window_id global_id : String) (instance_id : Nat) : String :=
  window_id ++ "/" ++ global_id ++ "[" ++ Nat.repr instance_id ++ "]"

/-- mcp.rs 401-405. -/
structure FlatEntry where
  full_id : String
  global_id : String
  element : UiElement
deriving Repr

instance : Inhabited FlatEntry := ⟨⟨"", "", default⟩⟩

/-- mcp.rs 408-453: one record becomes one flat entry with a freshly built element
(empty children). -/
def mkFlatEntry (window_id : String) (info : InspectorElementInfo) : FlatEntry :=
  let fid := fullId window_id info.global_id info.instance_id
  { full_id := fid
    global_id := info.global_id
    element :=
      { id := fid
        element_type := element_type_of info.source_location
        children := []
        source_location := some info.source_location } }

/-- mcp.rs 456-460: the sort comparator — ascending dot count of `global_id`,
ties broken by lexicographic `global_id`. -/
def entryLt (a b : FlatEntry) : Bool :=
  decide (dotCount a.global_id < dotCount b.global_id) ||
  (decide (dotCount a.global_id = dotCount b.global_id) && strLt a.global_id b.global_id)

/-- Insertion step of a stable insertion sort (`x` goes before the first element not
strictly below it, hence after all earlier-listed equals). -/
def stInsert (lt : α → α → Bool) (x : α) : List α → List α
  | [] => [x]
  | y :: ys => if lt y x then y :: stInsert lt x ys else x :: y :: ys

/-- Stable insertion sort: the model of `Vec::sort_by` (a stable sort) with the
given strict comparator. -/
def stSort (lt : α → α → Bool) : List α → List α
  | [] => []
  | x :: xs => stInsert lt x (stSort lt xs)

/-! ## The tree-building pass (mcp.rs 465-522) -/

/-- One candidate step of the best-parent scan (mcp.rs 488-503): candidate `j` is
skipped if it is the child itself; otherwise it replaces the current best when its
global id is a strict dot-bounded ancestor of the child's global id and is strictly
longer than the best ancestor found so far. -/
def bestParentStep (gmap : List (String × String)) (order : List String) (i : Nat)
    (child_global : String) (st : Option String × Nat) (j : Nat) : Option String × Nat :=
  if j = i then st
  else
    let cid := order.getD j ""
    let cg := (alGet gmap cid).getD ""
    if dotAnc cg child_global && decide (st.2 < cg.data.length) then (some cid, cg.data.length)
    else st

/-- mcp.rs 484-503: the full scan over all indices `0..len`, returning the chosen
parent's composite id, if any. -/
def findBestParent (gmap : List (String × String)) (order : List String) (i : Nat)
    (child_global : String) : Option String :=
  ((List.range order.length).foldl (bestParentStep gmap order i child_global) (none, 0)).1

/-- mcp.rs 480-514: processing of index `i` on the state
`(id_to_element, child_assigned)`: if a best parent exists, the child element is
removed from the map and, when the parent is still present, appended to the parent's
children and marked assigned. -/
def assignStep (gmap : List (String × String)) (order : List String)
    (st : List (String × UiElement) × List (String × Bool)) (i : Nat) :
    List (String × UiElement) × List (String × Bool) :=
  let elems := st.1
  let assigned := st.2
  let child_id := order.getD i ""
  let child_global := (alGet gmap child_id).getD ""
  match findBestParent gmap order i child_global with
  | none => (elems, assigned)
  | some parent_id =>
    match alGet elems child_id with
    | none => (elems, assigned)
    | some child_elem =>
      let elems' := alRemove elems child_id
      match alGet elems' parent_id with
      | none => (elems', assigned)
      | some parent_elem =>
        (alInsert elems' parent_id
           { parent_elem with children := parent_elem.children ++ [child_elem] },
         alInsert assigned child_id true)

/-- mcp.rs 517-521: walk `insertion_order`, skip assigned ids, and move each
remaining element out of the map into the root list. -/
def collectRoots (assigned : List (String × Bool)) :
    List String → List (String × UiElement) → List UiElement
  | [], _ => []
  | k :: rest, elems =>
    if (alGet assigned k).isSome then collectRoots assigned rest elems
    else
      match alGet elems k with
      | none => collectRoots assigned rest elems
      | some e => e :: collectRoots assigned rest (alRemove elems k)

/-- mcp.rs 465-521: phases 3-5 of `build_element_tree`, starting from the already
sorted entry list: build the index maps and the insertion order, run the
deepest-to-shallowest assignment pass, and collect the unassigned roots. -/
def buildFromSorted (sorted : List FlatEntry) : List UiElement :=
  let id_to_element := sorted.foldl (fun m e => alInsert m e.full_id e.element) []
  let id_to_global := sorted.foldl (fun m e => alInsert m e.full_id e.global_id) []
  let insertion_order := sorted.map (·.full_id)
  let st := ((List.range insertion_order.length).reverse).foldl
    (assignStep id_to_global insertion_order) (id_to_element, [])
  collectRoots st.2 insertion_order st.1

/-- mcp.rs 394-522: `build_element_tree`. -/
def build_element_tree (window_id : String) (elements : List InspectorElementInfo) :
    List UiElement :=
  buildFromSorted (stSort entryLt (elements.map (mkFlatEntry window_id)))

/-- The processing order of the builder: composite ids of the sorted entries. -/
def sortedIds (window_id : String) (elements : List InspectorElementInfo) : List String :=
  (stSort entryLt (elements.map (mkFlatEntry window_id))).map (·.full_id)

/-! ## Declarative description of the pass (used to state and prove its properties) -/

/-- One candidate step of the best-parent scan, phrased directly on the sorted list
of global ids. -/
def bestParentIdxStep (globals : List String) (i : Nat) (st : Option Nat × Nat)
    (j : Nat) : Option Nat × Nat :=
  if j = i then st
  else
    let cg := globals.getD j ""
    if dotAnc cg (globals.getD i "") && decide (st.2 < cg.data.length) then
      (some j, cg.data.length)
    else st

/-- The index of the parent chosen for index `i`: the first index carrying the
longest strict dot-bounded ancestor of `globals[i]`. -/
def bestParentIdx (globals : List String) (i : Nat) : Option Nat :=
  ((List.range globals.length).foldl (bestParentIdxStep globals i) (none, 0)).1

/-- The child indices of index `i`, in processing (descending-index) order. -/
def specChildIdxs (globals : List String) (i : Nat) : List Nat :=
  ((List.range globals.length).reverse).filter
    (fun j => decide (i < j) && bestParentIdx globals j == some i)

/-- The subtree the pass assembles under sorted index `i`. -/
def specSubtree (sorted : List FlatEntry) (i : Nat) : UiElement :=
  { (sorted.getD i default).element with
    children :=
      (specChildIdxs (sorted.map (·.global_id)) i).attach.map
        (fun j => specSubtree sorted j.1) }
termination_by sorted.length - i
decreasing_by
  have hmem := j.2
  simp only [specChildIdxs, List.mem_filter, List.mem_reverse, List.mem_range,
    Bool.and_eq_true, decide_eq_true_eq, List.length_map] at hmem
  omega

/-- The forest the pass assembles: one subtree per parentless index, in ascending
index order. -/
def specForest (sorted : List FlatEntry) : List UiElement :=
  ((List.range sorted.length).filter
      (fun i => bestParentIdx (sorted.map (·.global_id)) i == none)).map
    (fun i => specSubtree sorted i)

/-! ## Forest observations: edges, node counts -/

mutual

/-- Parent/child edges (by composite id) of a single element's subtree. -/
def UiElement.edges : UiElement → List (String × String)
  | .mk i _ cs _ => cs.map (fun c => (i, c.id)) ++ edgesForest cs

/-- Parent/child edges (by composite id) of a forest. -/
def edgesForest : List UiElement → List (String × String)
  | [] => []
  | c :: cs => c.edges ++ edgesForest cs

end

mutual

/-- Number of nodes carrying id `x` in an element's subtree. -/
def UiElement.countId (x : String) : UiElement → Nat
  | .mk i _ cs _ => (if i = x then 1 else 0) + countIdForest x cs

/-- Number of nodes carrying id `x` in a forest. -/
def countIdForest (x : String) : List UiElement → Nat
  | [] => 0
  | c :: cs => c.countId x + countIdForest x cs

end

mutual

/-- Total number of nodes of an element's subtree. -/
def UiElement.totalNodes : UiElement → Nat
  | .mk _ _ cs _ => 1 + totalNodesForest cs

/-- Total number of nodes of a forest. -/
def totalNodesForest : List UiElement → Nat
  | [] => 0
  | c :: cs => c.totalNodes + totalNodesForest cs

end

mutual

/-- All

 nodes of an element's subtree (the element itself included). -/
def UiElement.allNodes : UiElement → List UiElement
  | .mk i t cs s => .mk i t cs s :: allNodesForest cs

/-- All nodes of a forest. -/
def allNodesForest : List UiElement → List UiElement
  | [] => []
  | c :: cs => c.allNodes ++ allNodesForest cs

end

/-- Number of top-level (root) elements of the forest carrying id `x`. -/
def rootCount (x : String) (forest : List UiElement) : Nat :=
  forest.countP (fun e => e.id == x)

/-- Number of edges of the forest whose child side is `x`: the number of children
lists `x` occurs in (with multiplicity). -/
def edgesTo (x : String) (forest : List UiElement) : Nat :=
  (edgesForest forest).countP (fun p => p.2 == x)

/-! ## `get_element` (mcp.rs 524-614) -/

/-- The UI-host window state consumed by `handle_get_element`: its id string
(`format!` of the window id) and its flat inspector records. -/
structure WindowState where
  id : String
  inspector : List InspectorElementInfo
deriving Repr

/-- mcp.rs 564-566: a record matches the query by exact composite id, exact global
id, or suffix of global id. -/
def matchesQuery (window_id query : String) (info : InspectorElementInfo) : Bool :=
  fullId window_id info.global_id info.instance_id == query ||
  info.global_id == query ||
  query.data.isSuffixOf info.global_id.data

/-- mcp.rs 591-601: the matched record returned as a single leaf element. -/
def windowLeafElement (window_id : String) (info : InspectorElementInfo) : UiElement :=
  { id := fullId window_id info.global_id info.instance_id
    element_type := element_type_of info.source_location
    children := []
    source_location := some info.source_location }

/-- mcp.rs 534-606: the search inside one window — the window's own id first
(returning the window node with its rebuilt subtree), then the first matching
inspector record (returned as a leaf). -/
def findInWindow (query : String) (w : WindowState) : Option UiElement :=
  if w.id = query then
    some
      { id := w.id
        element_type := "Window"
        children := build_element_tree w.id w.inspector
        source_location := none }
  else (w.inspector.find? (matchesQuery w.id query)).map (windowLeafElement w.id)

/-- mcp.rs 524-614: `handle_get_element` — windows are searched in enumeration
order; if nothing matches the error names the query. -/
def handle_get_element (query : String) (windows : List WindowState) :
    Except String UiElement :=
  match windows.findSome? (findInWindow query) with
  | some e => .ok e
  | none => .error ("Element not found: " ++ query)

/-! ## Auxiliary definitions for the verification -/

/-- Whether sorted index `i` is assigned a parent by the pass. -/
def hasPar (globals : List String) (i : Nat) : Bool :=
  (bestParentIdx globals i).isSome

/-- Child indices of `i` already attached at stage `k` of the pass (children with
index `≥ k`), in processing (descending) order. -/
def childIdxsFrom (globals : List String) (k i : Nat) : List Nat :=
  ((List.range globals.length).reverse).filter
    (fun j => decide (k ≤ j) && (bestParentIdx globals j == some i))

/-- The element the pass stores for a live index `i` at stage `k` (all indices
`≥ k` processed). -/
def partialElem (sorted : List FlatEntry) (k i : Nat) : UiElement :=
  { (sorted.getD i default).element with
    children := (childIdxsFrom (sorted.map (·.global_id)) k i).map (specSubtree sorted) }

/-- Keys of an association list. -/
def alKeys (m : List (String × α)) : List String := m.map (·.1)

/-- The sort key of a flat entry: dot count of the global id, then the global id. -/
def ekey (e : FlatEntry) : Nat × String := (dotCount e.global_id, e.global_id)

/-- The decimal digit characters of `n`, most significant first (the specification
of `Nat.toDigits 10 n`, hence of `Nat.repr`). -/
def decDigits (n : Nat) : List Char :=
  if n < 10 then [Nat.digitChar n]
  else decDigits (n / 10) ++ [Nat.digitChar (n % 10)]
termination_by n
decreasing_by exact Nat.div_lt_self (by omega) (by norm_num)

/-- The numeric value of a decimal digit string. -/
def digitsVal (l : List Char) : Nat :=
  l.foldl (fun a c => 10 * a + (c.toNat - 48)) 0

/-- The indices still in the element map at stage `k` of the pass: the not yet
processed ones and the parentless ones. -/
def liveSet (globals : List String) (k : Nat) : Finset Nat :=
  (Finset.range globals.length).filter (fun i => i < k ∨ bestParentIdx globals i = none)

/-- Sum of a node measure over the elements in the map at stage `k`. -/
def specPoolSum (sorted : List FlatEntry) (φ : UiElement → Nat) (k : Nat) : Nat :=
  Finset.sum (liveSet (sorted.map (·.global_id)) k) (fun i => φ (partialElem sorted k i))

/-- The composite ids of the sorted entries (`insertion_order`). -/
def fids (sorted : List FlatEntry) : List String := sorted.map (·.full_id)

/-- The global ids of the sorted entries. -/
def gids (sorted : List FlatEntry) : List String := sorted.map (·.global_id)

/-- `id_to_global` as built by the pass. -/
def gmapOf (sorted : List FlatEntry) : List (String × String) :=
  sorted.foldl (fun m e => alInsert m e.full_id e.global_id) []

/-- `id_to_element` as initially built by the pass. -/
def emapOf (sorted : List FlatEntry) : List (String × UiElement) :=
  sorted.foldl (fun m e => alInsert m e.full_id e.element) []

/-- The invariant of the assignment fold: after processing all indices `≥ k`,
the assigned map holds exactly the processed indices that have a parent, and the
element map holds exactly the unprocessed indices plus the parentless ones, each
carrying the partial subtree assembled so far. -/
def BuildInv (sorted : List FlatEntry) (k : Nat)
    (st : List (String × UiElement) × List (String × Bool)) : Prop :=
  (alKeys st.1).Nodup ∧
  (∀ id : String, (alGet st.2 id).isSome = true ↔
    ∃ i, k ≤ i ∧ i < sorted.length ∧ hasPar (gids sorted) i = true ∧
      id = (fids sorted).getD i "") ∧
  (∀ i, i < sorted.length → k ≤ i → hasPar (gids sorted) i = true →
    alGet st.1 ((fids sorted).getD i "") = none) ∧
  (∀ i, i < sorted.length → (i < k ∨ hasPar (gids sorted) i = false) →
    alGet st.1 ((fids sorted).getD i "") = some (partialElem sorted k i)) ∧
  (∀ id : String, (∀ i, i < sorted.length → id ≠ (fids sorted).getD i "") →
    alGet st.1 id = none)

/-- The universal stage invariant of the assignment pass (no distinct-id hypothesis):
map keys are distinct, each stored element carries its key as id, each id occurs on
at most one node across the whole map, every edge joins `gmap`-bound ids whose
globals are in the dotted strict-ancestor relation, and every children list is a
subsequence of the processing order restricted to the already processed indices. -/
def GInv (gmap : List (String × String)) (order : List String) (k : Nat)
    (st : List (String × UiElement) × List (String × Bool)) : Prop :=
  (alKeys st.1).Nodup ∧
  (∀ p ∈ st.1, p.2.id = p.1) ∧
  (∀ x, (st.1.map (fun q => UiElement.countId x q.2)).sum ≤ 1) ∧
  (∀ p ∈ st.1, ∀ pc ∈ p.2.edges, ∃ gp gc,
    alGet gmap pc.1 = some gp ∧ alGet gmap pc.2 = some gc ∧ dotAnc gp gc = true) ∧
  (∀ p ∈ st.1, ∀ nd ∈ p.2.allNodes,
    List.Sublist (nd.children.map (fun c => c.id)) ((order.drop k).reverse))

/-! ## Log ring buffer lemmas -/

/-- After any sequence of `mcp_log` calls starting from the empty buffer, the buffer
holds exactly the last `MAX_LOG_ENTRIES` messages: `foldl` from `[]` is `drop` of the
excess over the capacity. -/
theorem foldl_mcp_log_eq (msgs : List String) :
    msgs.foldl mcp_log [] = msgs.drop (msgs.length - MAX_LOG_ENTRIES) := by
  induction msgs using List.reverseRecOn with
  | nil => rfl
  | append_singleton xs m ih =>
    rw [List.foldl_append, List.foldl_cons, List.foldl_nil, ih, mcp_log]
    have hM : MAX_LOG_ENTRIES = 500 := rfl
    by_cases hge : MAX_LOG_ENTRIES ≤ xs.length
    · rw [if_pos, List.tail_drop]
      · have h3 : (xs ++ [m]).length - MAX_LOG_ENTRIES = (xs.length - MAX_LOG_ENTRIES) + 1 := by
          simp only [List.length_append, List.length_singleton]
          omega
        rw [h3, List.drop_append_of_le_length (by omega)]
      · rw [List.length_drop]
        omega
    · rw [if_neg]
      · have h1 : xs.length - MAX_LOG_ENTRIES = 0 := by omega
        have h2 : (xs ++ [m]).length - MAX_LOG_ENTRIES = 0 := by
          simp only [List.length_append, List.length_singleton]
          omega
        rw [h1, h2, List.drop_zero, List.drop_zero]
      · rw [List.length_drop]
        omega

/-! ## Claim theorems (part 1) -/

/-- C1: the claim demands that every response written back carries the request's
`id`, including the synthesized timeout response.  The code violates this on the
timeout path: the `unwrap_or_else` closure at mcp.rs 154-157 builds the timeout
response with `id: String::new()`, i.e. the empty string, so for the failing input —
a request with id `"req-1"` whose reply misses the 10-second window — the response
id is `""`, not `"req-1"`.  (The spec's design notes themselves flag this empty-id
path as a bug to fix, so the claim is right and the code is wrong.)  The non-timeout
path does reflect the request id verbatim. -/
theorem C1_timeout_response_empty_id :
    (connection_reply none).id = "" ∧
    (connection_reply none).result = .error "Request timeout" ∧
    ("" : String) ≠ "req-1" ∧
    (∀ (req : IpcRequest) (result : Except String Json),
      (connection_reply (some (handle_request_response req result))).id = req.id) :=
  ⟨rfl, rfl, by decide, fun _ _ => rfl⟩

/-- C2: the log ring buffer never exceeds the capacity `MAX_LOG_ENTRIES = 500`, and
after `capacity + 1` pushes onto the initially empty buffer the first-pushed entry
is gone (provided it does not also occur later in the push sequence) while the
last-pushed entry is present. -/
theorem C2_log_ring_buffer :
    (∀ msgs : List String, (msgs.foldl mcp_log []).length ≤ MAX_LOG_ENTRIES) ∧
    (∀ (msgs : List String) (first last : String),
      msgs.length = MAX_LOG_ENTRIES + 1 →
      msgs.head? = some first →
      msgs.getLast? = some last →
      first ∉ msgs.tail →
      first ∉ msgs.foldl mcp_log [] ∧ last ∈ msgs.foldl mcp_log []) := by
  constructor
  · intro msgs
    rw [foldl_mcp_log_eq]
    simp only [List.length_drop]
    omega
  · intro msgs first last hlen hhead hlast hfresh
    rw [foldl_mcp_log_eq, hlen]
    have hdrop : MAX_LOG_ENTRIES + 1 - MAX_LOG_ENTRIES = 1 := by omega
    rw [hdrop]
    rcases msgs with _ | ⟨h, t⟩
    · simp at hhead
    · simp only [List.head?_cons, Option.some.injEq] at hhead
      subst hhead
      have ht : t ≠ [] := by
        intro h'
        rw [h'] at hlen
        simp [MAX_LOG_ENTRIES] at hlen
      constructor
      · simp only [List.tail_cons] at hfresh
        exact hfresh
      · have : last = (h :: t).getLast (by simp) := by
          rw [List.getLast?_eq_getLast _ (by simp)] at hlast
          exact (Option.some.injEq _ _).mp hlast |>.symm
        rw [this, List.getLast_cons ht]
        exact List.getLast_mem ht

set_option maxRecDepth 100000 in
/-- Witness for C2: pushing `"A"` followed by 500 copies of `"B"` onto the empty
buffer evicts `"A"` and keeps `"B"`. -/
theorem C2_log_ring_buffer_witness :
    "A" ∉ (("A" :: List.replicate 500 "B").foldl mcp_log []) ∧
    "B" ∈ (("A" :: List.replicate 500 "B").foldl mcp_log []) :=
  C2_log_ring_buffer.2 ("A" :: List.replicate 500 "B") "A" "B"
    (by simp [MAX_LOG_ENTRIES]) rfl (by decide) (by decide)

/-- C7: the key-chord string concatenates the enabled modifier prefix strings in the
fixed order ctrl, alt, shift, meta (the meta modifier's prefix being `"cmd-"`),
followed by the key; in particular ctrl+shift with key `"s"` yields
`"ctrl-shift-s"`. -/
theorem C7_keystroke_chord :
    keystroke_str ⟨true, false, true, false⟩ "s" = "ctrl-shift-s" ∧
    ∀ (m : Modifiers) (key : String),
      keystroke_str m key =
        String.join
          ((if m.ctrl then ["ctrl-"] else []) ++ (if m.alt then ["alt-"] else []) ++
           (if m.shift then ["shift-"] else []) ++ (if m.meta then ["cmd-"] else [])) ++
        key := by
  refine ⟨by decide, ?_⟩
  intro m key
  rcases m with ⟨c, a, s, mm⟩
  cases c <;> cases a <;> cases s <;> cases mm <;>
    simp [keystroke_str, String.join]

/-- C9: `take_screenshot` succeeds for every parameter value, always with
`width = 0`, `height = 0`, `png_base64 = ""` and a non-empty error string (the
handler is a total function returning a fixed `Ok` payload, so it can neither
produce a protocol-level failure nor crash). -/
theorem C9_take_screenshot_stub :
    ∀ params : Json, ∃ payload : Json,
      handle_take_screenshot params = .ok payload ∧
      payload.getField "width" = some (.num 0) ∧
      payload.getField "height" = some (.num 0) ∧
      payload.getField "png_base64" = some (.str "") ∧
      ∃ e : String, payload.getField "error" = some (.str e) ∧ e ≠ "" := by
  intro params
  refine ⟨_, rfl, rfl, rfl, rfl,
    "Screenshots are not yet supported (requires test-support feature)", rfl, by decide⟩

/-! ## Character and string order lemmas -/

theorem char_toNat_inj {a b : Char} (h : a.toNat = b.toNat) : a = b :=
  Char.ext (UInt32.ext h)

theorem charsLt_nil (l : List Char) : charsLt l [] = false := by
  cases l <;> rfl

theorem charsLt_asymm : ∀ (x y : List Char), charsLt x y = true → charsLt y x = false := by
  intro x
  induction x with
  | nil =>
    intro y h
    cases y with
    | nil => simp [charsLt] at h
    | cons b bs => rfl
  | cons a as ih =>
    intro y h
    cases y with
    | nil => simp [charsLt] at h
    | cons b bs =>
      rcases Nat.lt_trichotomy a.toNat b.toNat with hlt | heq | hgt
      · show charsLt (b :: bs) (a :: as) = false
        rw [charsLt, if_neg (by omega), if_pos hlt]
      · rw [charsLt, if_neg (by omega), if_neg (by omega)] at h
        show charsLt (b :: bs) (a :: as) = false
        rw [charsLt, if_neg (by omega), if_neg (by omega)]
        exact ih bs h
      · rw [charsLt, if_neg (by omega), if_pos hgt] at h
        simp at h

theorem charsLt_antisymm : ∀ (x y : List Char),
    charsLt x y = false → charsLt y x = false → x = y := by
  intro x
  induction x with
  | nil =>
    intro y h1 _
    cases y with
    | nil => rfl
    | cons b bs => simp [charsLt] at h1
  | cons a as ih =>
    intro y h1 h2
    cases y with
    | nil => simp [charsLt] at h2
    | cons b bs =>
      rcases Nat.lt_trichotomy a.toNat b.toNat with hlt | heq | hgt
      · rw [charsLt, if_pos hlt] at h1
        simp at h1
      · rw [charsLt, if_neg (by omega), if_neg (by omega)] at h1
        rw [charsLt, if_neg (by omega), if_neg (by omega)] at h2
        rw [char_toNat_inj heq, ih bs h1 h2]
      · rw [charsLt, if_pos hgt] at h2
        simp at h2

theorem charsLt_le_trans : ∀ (x y z : List Char),
    charsLt y x = false → charsLt z y = false → charsLt z x = false := by
  intro x
  induction x with
  | nil =>
    intro y z _ _
    exact charsLt_nil z
  | cons a as ih =>
    intro y z h1 h2
    cases y with
    | nil => simp [charsLt] at h1
    | cons b bs =>
      cases z with
      | nil => simp [charsLt] at h2
      | cons c cs =>
        rw [charsLt] at h1 h2 ⊢
        by_cases hba : b.toNat < a.toNat
        · rw [if_pos hba] at h1
          simp at h1
        · rw [if_neg hba] at h1
          by_cases hcb : c.toNat < b.toNat
          · rw [if_pos hcb] at h2
            simp at h2
          · rw [if_neg hcb] at h2
            rw [if_neg (by omega)]
            by_cases hab : a.toNat < b.toNat
            · rw [if_pos (by omega)]
            · rw [if_neg hab] at h1
              by_cases hbc : b.toNat < c.toNat
              · rw [if_pos (by omega)]
              · rw [if_neg hbc] at h2
                rw [if_neg (by omega)]
                exact ih bs cs h1 h2

theorem strLt_asymm {a b : String} (h : strLt a b = true) : strLt b a = false :=
  charsLt_asymm a.data b.data h

theorem strLt_antisymm {a b : String} (h1 : strLt a b = false) (h2 : strLt b a = false) :
    a = b :=
  String.ext (charsLt_antisymm a.data b.data h1 h2)

theorem strLt_le_trans {a b c : String} (h1 : strLt b a = false) (h2 : strLt c b = false) :
    strLt c a = false :=
  charsLt_le_trans a.data b.data c.data h1 h2

/-! ## Comparator lemmas -/

theorem entryLt_iff {a b : FlatEntry} :
    entryLt a b = true ↔
      (dotCount a.global_id < dotCount b.global_id ∨
       (dotCount a.global_id = dotCount b.global_id ∧ strLt a.global_id b.global_id = true)) := by
  simp [entryLt, Bool.or_eq_true, Bool.and_eq_true, decide_eq_true_eq]

theorem entryLt_eq_false {a b : FlatEntry} :
    entryLt a b = false ↔
      ¬(dotCount a.global_id < dotCount b.global_id ∨
        (dotCount a.global_id = dotCount b.global_id ∧ strLt a.global_id b.global_id = true)) := by
  rw [Bool.eq_false_iff]
  exact not_congr entryLt_iff

theorem entryLt_asymm {a b : FlatEntry} (h : entryLt a b = true) : entryLt b a = false := by
  rw [entryLt_eq_false]
  rw [entryLt_iff] at h
  rcases h with h | ⟨he, hs⟩ <;> rintro (h' | ⟨he', hs'⟩)
  · omega
  · omega
  · omega
  · have := strLt_asymm hs
    rw [this] at hs'
    simp at hs'

theorem entryLt_le_trans {a b c : FlatEntry} (h1 : entryLt b a = false)
    (h2 : entryLt c b = false) : entryLt c a = false := by
  rw [entryLt_eq_false] at h1 h2 ⊢
  push_neg at h1 h2 ⊢
  obtain ⟨h1d, h1s⟩ := h1
  obtain ⟨h2d, h2s⟩ := h2
  refine ⟨by omega, fun he => ?_⟩
  have hba : strLt b.global_id a.global_id = false :=
    Bool.eq_false_iff.mpr (h1s (by omega))
  have hcb : strLt c.global_id b.global_id = false :=
    Bool.eq_false_iff.mpr (h2s (by omega))
  exact Bool.eq_false_iff.mp (strLt_le_trans hba hcb)

theorem entryLt_key_antisymm {a b : FlatEntry} (h1 : entryLt a b = false)
    (h2 : entryLt b a = false) : ekey a = ekey b := by
  rw [entryLt_eq_false] at h1 h2
  push_neg at h1 h2
  obtain ⟨h1d, h1s⟩ := h1
  obtain ⟨h2d, h2s⟩ := h2
  have hd : dotCount a.global_id = dotCount b.global_id := by omega
  have hg : a.global_id = b.global_id :=
    strLt_antisymm (Bool.eq_false_iff.mpr (h1s hd)) (Bool.eq_false_iff.mpr (h2s hd.symm))
  simp [ekey, hd, hg]

theorem entryLt_of_dotCount {a b : FlatEntry}
    (h : dotCount a.global_id < dotCount b.global_id) : entryLt a b = true := by
  rw [entryLt_iff]
  exact .inl h

/-! ## Decimal digit lemmas (`Nat.repr`) -/

theorem decDigits_ne_nil (n : Nat) : decDigits n ≠ [] := by
  rw [decDigits]
  split <;> simp

theorem digitChar_isDigit {m : Nat} (h : m < 10) : (Nat.digitChar m).isDigit = true := by
  interval_cases m <;> decide

theorem digitChar_toNat {m : Nat} (h : m < 10) : (Nat.digitChar m).toNat - 48 = m := by
  interval_cases m <;> decide

theorem decDigits_all_digits (n : Nat) : ∀ c ∈ decDigits n, c.isDigit = true := by
  induction n using Nat.strong_induction_on with
  | _ n ih =>
    rw [decDigits]
    split
    · next h =>
      intro c hc
      simp only [List.mem_singleton] at hc
      subst hc
      exact digitChar_isDigit h
    · next h =>
      intro c hc
      rw [List.mem_append] at hc
      rcases hc with hc | hc
      · exact ih (n / 10) (Nat.div_lt_self (by omega) (by norm_num)) c hc
      · simp only [List.mem_singleton] at hc
        subst hc
        exact digitChar_isDigit (Nat.mod_lt n (by norm_num))

theorem digitsVal_append (l : List Char) (c : Char) :
    digitsVal (l ++ [c]) = 10 * digitsVal l + (c.toNat - 48) := by
  simp [digitsVal, List.foldl_append]

theorem digitsVal_decDigits (n : Nat) : digitsVal (decDigits n) = n := by
  induction n using Nat.strong_induction_on with
  | _ n ih =>
    rw [decDigits]
    split
    · next h =>
      simp only [digitsVal, List.foldl_cons, List.foldl_nil, Nat.mul_zero, Nat.zero_add]
      exact digitChar_toNat h
    · next h =>
      rw [digitsVal_append, ih (n / 10) (Nat.div_lt_self (by omega) (by norm_num)),
        digitChar_toNat (Nat.mod_lt n (by norm_num))]
      omega

theorem decDigits_inj {m n : Nat} (h : decDigits m = decDigits n) : m = n := by
  rw [← digitsVal_decDigits m, ← digitsVal_decDigits n, h]

theorem toDigitsCore_eq_decDigits :
    ∀ (n fuel : Nat) (ds : List Char), n ≤ fuel →
      Nat.toDigitsCore 10 (fuel + 1) n ds = decDigits n ++ ds := by
  intro n
  induction n using Nat.strong_induction_on with
  | _ n ih =>
    intro fuel ds hn
    rw [Nat.toDigitsCore]
    by_cases h0 : n / 10 = 0
    · have hn10 : n < 10 := by
        rcases Nat.lt_or_ge n 10 with h | h
        · exact h
        · exact absurd h0 (by
            have : 1 ≤ n / 10 := Nat.one_le_div_iff (by norm_num) |>.mpr h
            omega)
      simp only [h0, if_pos]
      rw [decDigits, if_pos hn10, Nat.mod_eq_of_lt hn10]
      rfl
    · have hpos : 0 < n := by
        rcases Nat.eq_zero_or_pos n with h | h
        · subst h
          simp at h0
        · exact h
      have hdiv : n / 10 < n := Nat.div_lt_self hpos (by norm_num)
      have h10 : 10 ≤ n := by
        by_contra hlt
        exact h0 (Nat.div_eq_of_lt (by omega))
      obtain ⟨f, rfl⟩ : ∃ f, fuel = f + 1 := ⟨fuel - 1, by omega⟩
      rw [if_neg h0]
      have hf : n / 10 ≤ f := Nat.lt_succ_iff.mp (lt_of_lt_of_le hdiv hn)
      rw [ih (n / 10) hdiv f (Nat.digitChar (n % 10) :: ds) hf]
      have hdd : decDigits n = decDigits (n / 10) ++ [Nat.digitChar (n % 10)] := by
        rw [decDigits, if_neg (by omega)]
      rw [hdd]
      simp [List.append_assoc]

theorem repr_data_eq_decDigits (n : Nat) : (Nat.repr n).data = decDigits n := by
  show (Nat.toDigits 10 n).asString.data = decDigits n
  rw [Nat.toDigits, toDigitsCore_eq_decDigits n n [] (le_refl n)]
  show decDigits n ++ [] = decDigits n
  simp

theorem repr_inj {m n : Nat} (h : Nat.repr m = Nat.repr n) : m = n :=
  decDigits_inj (by rw [← repr_data_eq_decDigits, ← repr_data_eq_decDigits, h])

/-! ## `fullId` parsing lemmas -/

theorem fullId_data (w g : String) (i : Nat) :
    (fullId w g i).data = w.data ++ '/' :: (g.data ++ '[' :: (decDigits i ++ [']'])) := by
  have h1 : ("/" : String).data = ['/'] := rfl
  have h2 : ("[" : String).data = ['['] := rfl
  have h3 : ("]" : String).data = [']'] := rfl
  simp [fullId, String.data_append, h1, h2, h3, repr_data_eq_decDigits, List.append_assoc]

theorem digit_run_parse :
    ∀ (d₁ r₁ d₂ r₂ : List Char),
      (∀ c ∈ d₁, c.isDigit = true) → (∀ c ∈ d₂, c.isDigit = true) →
      d₁ ++ '[' :: r₁ = d₂ ++ '[' :: r₂ → d₁ = d₂ ∧ r₁ = r₂ := by
  intro d₁
  induction d₁ with
  | nil =>
    intro r₁ d₂ r₂ _ hd₂ h
    cases d₂ with
    | nil =>
      simp only [List.nil_append, List.cons.injEq, true_and] at h
      exact ⟨rfl, h⟩
    | cons c cs =>
      simp only [List.nil_append, List.cons_append, List.cons.injEq] at h
      exfalso
      have hc := hd₂ c (by simp)
      rw [← h.1] at hc
      simp at hc
  | cons c cs ih =>
    intro r₁ d₂ r₂ hd₁ hd₂ h
    cases d₂ with
    | nil =>
      simp only [List.nil_append, List.cons_append, List.cons.injEq] at h
      exfalso
      have hc := hd₁ c (by simp)
      rw [h.1] at hc
      simp at hc
    | cons c₂ cs₂ =>
      simp only [List.cons_append, List.cons.injEq] at h
      obtain ⟨hc, ht⟩ := h
      obtain ⟨h1, h2⟩ := ih r₁ cs₂ r₂ (fun x hx => hd₁ x (by simp [hx]))
        (fun x hx => hd₂ x (by simp [hx])) ht
      subst hc
      subst h1
      subst h2
      exact ⟨rfl, rfl⟩

theorem fullId_inj {w g₁ g₂ : String} {i₁ i₂ : Nat}
    (h : fullId w g₁ i₁ = fullId w g₂ i₂) : g₁ = g₂ ∧ i₁ = i₂ := by
  have hd := congrArg String.data h
  rw [fullId_data, fullId_data] at hd
  have hd2 := List.append_cancel_left hd
  simp only [List.cons.injEq, true_and] at hd2
  have hrev := congrArg List.reverse hd2
  simp only [List.reverse_append, List.reverse_cons, List.reverse_nil, List.append_assoc,
    List.singleton_append, List.nil_append, List.cons_append, List.cons.injEq,
    true_and] at hrev
  have hdig : ∀ (i : Nat), ∀ c ∈ (decDigits i).reverse, c.isDigit = true := by
    intro i c hc
    exact decDigits_all_digits i c (List.mem_reverse.mp hc)
  obtain ⟨hda, hdb⟩ := digit_run_parse _ _ _ _ (hdig i₁) (hdig i₂) hrev
  have hg : g₁ = g₂ := String.ext (List.reverse_injective hdb)
  have hi : i₁ = i₂ := decDigits_inj (List.reverse_injective hda)
  exact ⟨hg, hi⟩

theorem fullId_inj_iff {w g₁ g₂ : String} {i₁ i₂ : Nat} :
    fullId w g₁ i₁ = fullId w g₂ i₂ ↔ (g₁ = g₂ ∧ i₁ = i₂) := by
  constructor
  · exact fullId_inj
  · rintro ⟨rfl, rfl⟩
    rfl

theorem decDigits_not_mem_dot (i : Nat) : ('.' : Char) ∉ decDigits i := by
  intro h
  have := decDigits_all_digits i '.' h
  simp at this

theorem dotCount_fullId (w g : String) (i : Nat) :
    dotCount (fullId w g i) = dotCount w + dotCount g := by
  rw [dotCount, dotCount, dotCount, fullId_data]
  rw [List.count_append, List.count_cons]
  rw [List.count_append, List.count_cons]
  rw [List.count_append]
  have h1 : List.count '.' (decDigits i) = 0 :=
    List.count_eq_zero.mpr (decDigits_not_mem_dot i)
  have h2 : List.count ('.' : Char) [']'] = 0 := by decide
  simp [h1, h2]

/-! ## `dotAnc` lemmas -/

theorem dotAnc_iff {a b : String} :
    dotAnc a b = true ↔
      (a.data <+: b.data ∧ a.data.length < b.data.length ∧
       b.data[a.data.length]? = some '.') := by
  rw [dotAnc]
  simp [Bool.and_eq_true, List.isPrefixOf_iff_prefix, decide_eq_true_eq, beq_iff_eq,
    and_assoc]

theorem dotAnc_dotCount {a b : String} (h : dotAnc a b = true) : dotCount a < dotCount b := by
  rw [dotAnc_iff] at h
  obtain ⟨⟨t, ht⟩, hlen, hdot⟩ := h
  rw [← ht, List.getElem?_append_right (le_refl _), Nat.sub_self] at hdot
  cases t with
  | nil => simp at hdot
  | cons c cs =>
    simp only [List.getElem?_cons_zero, Option.some.injEq] at hdot
    subst hdot
    rw [dotCount, dotCount, ← ht, List.count_append, List.count_cons]
    simp

/-! ## Association list lemmas -/

theorem alGet_alInsert_same (m : List (String × α)) (k : String) (v : α) :
    alGet (alInsert m k v) k = some v := by
  induction m with
  | nil => simp [alInsert, alGet]
  | cons p rest ih =>
    obtain ⟨k', v'⟩ := p
    by_cases h : k' = k
    · subst h
      simp [alInsert, alGet]
    · simp [alInsert, alGet, h, ih]

theorem alGet_alInsert_ne (m : List (String × α)) {k k' : String} (v : α) (h : k' ≠ k) :
    alGet (alInsert m k v) k' = alGet m k' := by
  induction m with
  | nil => simp [alInsert, alGet, Ne.symm h]
  | cons p rest ih =>
    obtain ⟨k'', v''⟩ := p
    by_cases h2 : k'' = k
    · subst h2
      simp [alInsert, alGet, Ne.symm h]
    · by_cases h3 : k'' = k'
      · subst h3
        simp [alInsert, alGet, h2]
      · simp [alInsert, alGet, h2, h3, ih]

theorem alGet_alRemove_ne (m : List (String × α)) {k k' : String} (h : k' ≠ k) :
    alGet (alRemove m k) k' = alGet m k' := by
  induction m with
  | nil => simp [alRemove]
  | cons p rest ih =>
    obtain ⟨k'', v''⟩ := p
    by_cases h2 : k'' = k
    · subst h2
      simp [alRemove, alGet, Ne.symm h]
    · simp [alRemove, alGet, h2, ih]

theorem alGet_eq_none (m : List (String × α)) (k : String) (h : k ∉ alKeys m) :
    alGet m k = none := by
  induction m with
  | nil => rfl
  | cons p rest ih =>
    obtain ⟨k', v'⟩ := p
    simp only [alKeys, List.map_cons, List.mem_cons] at h
    push_neg at h
    rw [alGet, if_neg (Ne.symm h.1)]
    exact ih h.2

theorem mem_alKeys_of_alGet {m : List (String × α)} {k : String} {v : α}
    (h : alGet m k = some v) : k ∈ alKeys m := by
  induction m with
  | nil => simp [alGet] at h
  | cons p rest ih =>
    obtain ⟨k', v'⟩ := p
    rw [alGet] at h
    by_cases h2 : k' = k
    · subst h2
      simp [alKeys]
    · rw [if_neg h2] at h
      simp only [alKeys, List.map_cons, List.mem_cons]
      exact .inr (ih h)

theorem alGet_mem {m : List (String × α)} {k : String} {v : α}
    (h : alGet m k = some v) : (k, v) ∈ m := by
  induction m with
  | nil => simp [alGet] at h
  | cons p rest ih =>
    obtain ⟨k', v'⟩ := p
    rw [alGet] at h
    by_cases h2 : k' = k
    · subst h2
      rw [if_pos rfl] at h
      simp only [Option.some.injEq] at h
      subst h
      simp
    · rw [if_neg h2] at h
      exact List.mem_cons_of_mem _ (ih h)

theorem alRemove_sublist (m : List (String × α)) (k : String) :
    List.Sublist (alRemove m k) m := by
  induction m with
  | nil => simp [alRemove]
  | cons p rest ih =>
    obtain ⟨k', v'⟩ := p
    rw [alRemove]
    by_cases h : k' = k
    · rw [if_pos h]
      exact List.sublist_cons_self _ _
    · rw [if_neg h]
      exact ih.cons₂ _

theorem alGet_alRemove_same (m : List (String × α)) (k : String)
    (h : (alKeys m).Nodup) : alGet (alRemove m k) k = none := by
  induction m with
  | nil => rfl
  | cons p rest ih =>
    obtain ⟨k', v'⟩ := p
    simp only [alKeys, List.map_cons, List.nodup_cons] at h
    rw [alRemove]
    by_cases h2 : k' = k
    · subst h2
      rw [if_pos rfl]
      exact alGet_eq_none rest k' h.1
    · rw [if_neg h2, alGet, if_neg h2]
      exact ih h.2

theorem mem_alKeys_alInsert {m : List (String × α)} {k x : String} {v : α} :
    x ∈ alKeys (alInsert m k v) ↔ x = k ∨ x ∈ alKeys m := by
  induction m with
  | nil => simp [alInsert, alKeys]
  | cons p rest ih =>
    obtain ⟨k', v'⟩ := p
    by_cases h : k' = k
    · subst h
      simp [alInsert, alKeys]
    · simp [alInsert, alKeys, h] at ih ⊢
      tauto

theorem alKeys_nodup_alInsert (m : List (String × α)) (k : String) (v : α)
    (h : (alKeys m).Nodup) : (alKeys (alInsert m k v)).Nodup := by
  induction m with
  | nil => simp [alInsert, alKeys]
  | cons p rest ih =>
    obtain ⟨k', v'⟩ := p
    simp only [alKeys, List.map_cons, List.nodup_cons] at h
    by_cases h2 : k' = k
    · subst h2
      rw [alInsert, if_pos rfl]
      simp only [alKeys, List.map_cons, List.nodup_cons]
      exact h
    · rw [alInsert, if_neg h2]
      simp only [alKeys, List.map_cons, List.nodup_cons]
      refine ⟨?_, ih h.2⟩
      intro hmem
      rcases mem_alKeys_alInsert.mp hmem with h3 | h3
      · exact h2 h3
      · exact h.1 h3

theorem alKeys_nodup_alRemove (m : List (String × α)) (k : String)
    (h : (alKeys m).Nodup) : (alKeys (alRemove m k)).Nodup :=
  h.sublist ((alRemove_sublist m k).map _)

theorem alInsert_eq_append (m : List (String × α)) (k : String) (v : α)
    (h : k ∉ alKeys m) : alInsert m k v = m ++ [(k, v)] := by
  induction m with
  | nil => rfl
  | cons p rest ih =>
    obtain ⟨k', v'⟩ := p
    simp only [alKeys, List.map_cons, List.mem_cons] at h
    push_neg at h
    rw [alInsert, if_neg (Ne.symm h.1)]
    rw [ih h.2]
    simp

theorem alKeys_append (m₁ m₂ : List (String × α)) :
    alKeys (m₁ ++ m₂) = alKeys m₁ ++ alKeys m₂ := by
  simp [alKeys]

theorem foldl_alInsert_pairs {β : Type} (key : β → String) (val : β → α) :
    ∀ (l : List β) (m : List (String × α)),
      (∀ e ∈ l, key e ∉ alKeys m) → (l.map key).Nodup →
      l.foldl (fun acc e => alInsert acc (key e) (val e)) m =
        m ++ l.map (fun e => (key e, val e)) := by
  intro l
  induction l with
  | nil => simp
  | cons e rest ih =>
    intro m hm hnd
    simp only [List.foldl_cons]
    rw [alInsert_eq_append m _ _ (hm e (by simp))]
    rw [ih (m ++ [(key e, val e)])]
    · simp
    · intro e' he'
      rw [alKeys_append]
      simp only [List.mem_append, alKeys, List.map_cons, List.map_nil, List.mem_singleton]
      push_neg
      refine ⟨hm e' (by simp [he']), ?_⟩
      rw [List.map_cons, List.nodup_cons] at hnd
      intro hcontra
      exact hnd.1 (hcontra ▸ List.mem_map_of_mem key he')
    · rw [List.map_cons, List.nodup_cons] at hnd
      exact hnd.2

theorem alGet_pairs (pairs : List (String × α)) (h : (alKeys pairs).Nodup) {k : String}
    {v : α} (hm : (k, v) ∈ pairs) : alGet pairs k = some v := by
  induction pairs with
  | nil => simp at hm
  | cons p rest ih =>
    obtain ⟨k', v'⟩ := p
    simp only [alKeys, List.map_cons, List.nodup_cons] at h
    rcases List.mem_cons.mp hm with heq | hmem
    · obtain ⟨h1, h2⟩ := Prod.mk.injEq .. |>.mp heq.symm
      rw [alGet, if_pos h1, h2]
    · by_cases h2 : k' = k
      · subst h2
        exfalso
        exact h.1 (List.mem_map_of_mem Prod.fst hmem)
      · rw [alGet, if_neg h2]
        exact ih h.2 hmem

theorem alInsert_mem_or {m : List (String × α)} {k : String} {v : α} {p : String × α}
    (h : p ∈ alInsert m k v) : p = (k, v) ∨ p ∈ m := by
  induction m with
  | nil => simpa [alInsert] using h
  | cons q rest ih =>
    obtain ⟨k', v'⟩ := q
    rw [alInsert] at h
    by_cases h2 : k' = k
    · rw [if_pos h2] at h
      rcases List.mem_cons.mp h with h3 | h3
      · exact .inl h3
      · exact .inr (List.mem_cons_of_mem _ h3)
    · rw [if_neg h2] at h
      rcases List.mem_cons.mp h with h3 | h3
      · exact .inr (h3 ▸ List.mem_cons_self _ _)
      · rcases ih h3 with h4 | h4
        · exact .inl h4
        · exact .inr (List.mem_cons_of_mem _ h4)

theorem alRemove_mem {m : List (String × α)} {k : String} {p : String × α}
    (h : p ∈ alRemove m k) : p ∈ m :=
  (alRemove_sublist m k).subset h

/-! ## Stable sort lemmas -/

theorem stInsert_perm (lt : α → α → Bool) (x : α) (l : List α) :
    (stInsert lt x l).Perm (x :: l) := by
  induction l with
  | nil => exact List.Perm.refl _
  | cons y ys ih =>
    rw [stInsert]
    by_cases h : lt y x = true
    · rw [if_pos h]
      exact (ih.cons y).trans (List.Perm.swap x y ys)
    · rw [if_neg h]

theorem stSort_perm (lt : α → α → Bool) (l : List α) : (stSort lt l).Perm l := by
  induction l with
  | nil => exact List.Perm.refl _
  | cons x xs ih =>
    rw [stSort]
    exact (stInsert_perm lt x (stSort lt xs)).trans (ih.cons x)

theorem stInsert_pairwise (x : FlatEntry) (l : List FlatEntry)
    (h : l.Pairwise (fun a b => entryLt b a = false)) :
    (stInsert entryLt x l).Pairwise (fun a b => entryLt b a = false) := by
  induction l with
  | nil => simp [stInsert]
  | cons y ys ih =>
    rw [List.pairwise_cons] at h
    obtain ⟨hy, hys⟩ := h
    rw [stInsert]
    by_cases hlt : entryLt y x = true
    · rw [if_pos hlt, List.pairwise_cons]
      refine ⟨?_, ih hys⟩
      intro z hz
      rcases List.mem_cons.mp ((stInsert_perm entryLt x ys).mem_iff.mp hz) with rfl | hz'
      · exact entryLt_asymm hlt
      · exact hy z hz'
    · rw [if_neg hlt, List.pairwise_cons]
      refine ⟨?_, List.pairwise_cons.mpr ⟨hy, hys⟩⟩
      intro z hz
      rcases List.mem_cons.mp hz with rfl | hz'
      · exact Bool.eq_false_iff.mpr hlt
      · exact entryLt_le_trans (Bool.eq_false_iff.mpr hlt) (hy z hz')

theorem stSort_pairwise (l : List FlatEntry) :
    (stSort entryLt l).Pairwise (fun a b => entryLt b a = false) := by
  induction l with
  | nil => simp [stSort]
  | cons x xs ih =>
    rw [stSort]
    exact stInsert_pairwise x _ ih

theorem sorted_keydistinct_unique :
    ∀ (l₁ l₂ : List FlatEntry), l₁.Perm l₂ →
      l₁.Pairwise (fun a b => entryLt b a = false) →
      l₂.Pairwise (fun a b => entryLt b a = false) →
      l₁.Pairwise (fun a b => ekey a ≠ ekey b) →
      l₁ = l₂ := by
  intro l₁
  induction l₁ with
  | nil =>
    intro l₂ hp _ _ _
    exact hp.nil_eq
  | cons a t₁ ih =>
    intro l₂ hp hs1 hs2 hk
    cases l₂ with
    | nil => exact absurd hp.eq_nil (by simp)
    | cons b t₂ =>
      by_cases hab : a = b
      · subst hab
        rw [ih t₂ hp.cons_inv (List.pairwise_cons.mp hs1).2 (List.pairwise_cons.mp hs2).2
          (List.pairwise_cons.mp hk).2]
      · exfalso
        have ha2 : a ∈ t₂ := by
          rcases List.mem_cons.mp (hp.mem_iff.mp (List.mem_cons_self a t₁)) with h | h
          · exact absurd h hab
          · exact h
        have hb1 : b ∈ t₁ := by
          rcases List.mem_cons.mp (hp.symm.mem_iff.mp (List.mem_cons_self b t₂)) with h | h
          · exact absurd h.symm hab
          · exact h
        have hR1 : entryLt b a = false := (List.pairwise_cons.mp hs1).1 b hb1
        have hR2 : entryLt a b = false := (List.pairwise_cons.mp hs2).1 a ha2
        exact (List.pairwise_cons.mp hk).1 b hb1 (entryLt_key_antisymm hR2 hR1)

theorem stSort_eq_of_perm {l₁ l₂ : List FlatEntry} (hp : l₁.Perm l₂)
    (hk : l₁.Pairwise (fun a b => ekey a ≠ ekey b)) :
    stSort entryLt l₁ = stSort entryLt l₂ := by
  apply sorted_keydistinct_unique
  · exact (stSort_perm entryLt l₁).trans (hp.trans (stSort_perm entryLt l₂).symm)
  · exact stSort_pairwise l₁
  · exact stSort_pairwise l₂
  · exact ((stSort_perm entryLt l₁).pairwise_iff (fun h => h.symm)).mpr hk

/-! ## The index maps built by the pass -/

theorem fids_getD {sorted : List FlatEntry} {j : Nat} (hj : j < sorted.length) :
    (fids sorted).getD j "" = (sorted.getD j default).full_id := by
  rw [fids, List.getD_eq_getElem _ _ (by simpa using hj), List.getElem_map,
    List.getD_eq_getElem _ _ hj]

theorem gids_getD {sorted : List FlatEntry} {j : Nat} (hj : j < sorted.length) :
    (gids sorted).getD j "" = (sorted.getD j default).global_id := by
  rw [gids, List.getD_eq_getElem _ _ (by simpa using hj), List.getElem_map,
    List.getD_eq_getElem _ _ hj]

theorem gmapOf_eq (sorted : List FlatEntry) (hnd : (fids sorted).Nodup) :
    gmapOf sorted = sorted.map (fun e => (e.full_id, e.global_id)) := by
  have h := foldl_alInsert_pairs (fun e : FlatEntry => e.full_id) (fun e => e.global_id)
    sorted [] (by intro e _; simp [alKeys]) (by simpa [fids] using hnd)
  simpa [gmapOf] using h

theorem emapOf_eq (sorted : List FlatEntry) (hnd : (fids sorted).Nodup) :
    emapOf sorted = sorted.map (fun e => (e.full_id, e.element)) := by
  have h := foldl_alInsert_pairs (fun e : FlatEntry => e.full_id) (fun e => e.element)
    sorted [] (by intro e _; simp [alKeys]) (by simpa [fids] using hnd)
  simpa [emapOf] using h

theorem emapOf_keys (sorted : List FlatEntry) (hnd : (fids sorted).Nodup) :
    alKeys (emapOf sorted) = fids sorted := by
  rw [emapOf_eq sorted hnd]
  simp [alKeys, fids]

theorem gmap_lookup (sorted : List FlatEntry) (hnd : (fids sorted).Nodup) {j : Nat}
    (hj : j < sorted.length) :
    alGet (gmapOf sorted) ((fids sorted).getD j "") = some ((gids sorted).getD j "") := by
  rw [gmapOf_eq sorted hnd, fids_getD hj, gids_getD hj]
  apply alGet_pairs
  · have : alKeys (sorted.map (fun e => (e.full_id, e.global_id))) = fids sorted := by
      simp [alKeys, fids]
    rw [this]
    exact hnd
  · rw [List.getD_eq_getElem _ _ hj]
    exact List.mem_map_of_mem _ (List.getElem_mem hj)

theorem emap_lookup (sorted : List FlatEntry) (hnd : (fids sorted).Nodup) {j : Nat}
    (hj : j < sorted.length) :
    alGet (emapOf sorted) ((fids sorted).getD j "") =
      some ((sorted.getD j default).element) := by
  rw [emapOf_eq sorted hnd, fids_getD hj]
  apply alGet_pairs
  · have : alKeys (sorted.map (fun e => (e.full_id, e.element))) = fids sorted := by
      simp [alKeys, fids]
    rw [this]
    exact hnd
  · rw [List.getD_eq_getElem _ _ hj]
    exact List.mem_map_of_mem _ (List.getElem_mem hj)

/-! ## Characterization of the best-parent scan -/

theorem bestParent_fold_rel (sorted : List FlatEntry) (hnd : (fids sorted).Nodup) (i : Nat) :
    ∀ (js : List Nat), (∀ j ∈ js, j < sorted.length) → ∀ (s' : Option Nat × Nat),
      js.foldl (bestParentStep (gmapOf sorted) (fids sorted) i ((gids sorted).getD i ""))
          (s'.1.map (fun j => (fids sorted).getD j ""), s'.2) =
        ((js.foldl (bestParentIdxStep (gids sorted) i) s').1.map
            (fun j => (fids sorted).getD j ""),
          (js.foldl (bestParentIdxStep (gids sorted) i) s').2) := by
  intro js
  induction js with
  | nil =>
    intro _ s'
    rfl
  | cons j rest ih =>
    intro hjs s'
    simp only [List.foldl_cons]
    have hj : j < sorted.length := hjs j (by simp)
    have hstep : bestParentStep (gmapOf sorted) (fids sorted) i ((gids sorted).getD i "")
        (s'.1.map (fun q => (fids sorted).getD q ""), s'.2) j =
        ((bestParentIdxStep (gids sorted) i s' j).1.map (fun q => (fids sorted).getD q ""),
         (bestParentIdxStep (gids sorted) i s' j).2) := by
      rw [bestParentStep, bestParentIdxStep]
      by_cases hji : j = i
      · rw [if_pos hji, if_pos hji]
      · rw [if_neg hji, if_neg hji]
        simp only [gmap_lookup sorted hnd hj, Option.getD_some]
        by_cases hcond :
            (dotAnc ((gids sorted).getD j "") ((gids sorted).getD i "") &&
              decide (s'.2 < ((gids sorted).getD j "").data.length)) = true
        · rw [if_pos hcond, if_pos hcond]
          simp
        · rw [if_neg hcond, if_neg hcond]
    rw [hstep]
    exact ih (fun q hq => hjs q (by simp [hq])) _

theorem findBestParent_eq (sorted : List FlatEntry) (hnd : (fids sorted).Nodup) (i : Nat) :
    findBestParent (gmapOf sorted) (fids sorted) i ((gids sorted).getD i "") =
      (bestParentIdx (gids sorted) i).map (fun j => (fids sorted).getD j "") := by
  rw [findBestParent, bestParentIdx]
  have lenEq : (fids sorted).length = (gids sorted).length := by simp [fids, gids]
  rw [lenEq]
  have h := bestParent_fold_rel sorted hnd i (List.range (gids sorted).length)
    (fun j hj => by simpa [gids] using List.mem_range.mp hj) (none, 0)
  simp only [Option.map_none'] at h
  exact congrArg Prod.fst h

theorem bestParentIdx_spec (globals : List String) (i : Nat) {p : Nat}
    (h : bestParentIdx globals i = some p) :
    p < globals.length ∧ p ≠ i ∧
      dotAnc (globals.getD p "") (globals.getD i "") = true := by
  rw [bestParentIdx] at h
  suffices H : ∀ (js : List Nat), (∀ j ∈ js, j < globals.length) → ∀ (s : Option Nat × Nat),
      (∀ q, s.1 = some q → q < globals.length ∧ q ≠ i ∧
        dotAnc (globals.getD q "") (globals.getD i "") = true) →
      ∀ q, (js.foldl (bestParentIdxStep globals i) s).1 = some q →
        q < globals.length ∧ q ≠ i ∧
          dotAnc (globals.getD q "") (globals.getD i "") = true by
    exact H (List.range globals.length) (fun j hj => List.mem_range.mp hj) (none, 0)
      (by simp) p h
  intro js
  induction js with
  | nil =>
    intro _ s hs q hq
    exact hs q hq
  | cons j rest ih =>
    intro hjs s hs
    simp only [List.foldl_cons]
    apply ih (fun x hx => hjs x (by simp [hx]))
    intro q hq
    rw [bestParentIdxStep] at hq
    by_cases hji : j = i
    · rw [if_pos hji] at hq
      exact hs q hq
    · rw [if_neg hji] at hq
      by_cases hcond : (dotAnc (globals.getD j "") (globals.getD i "") &&
          decide (s.2 < (globals.getD j "").data.length)) = true
      · rw [if_pos hcond] at hq
        simp only [Option.some.injEq] at hq
        subst hq
        exact ⟨hjs j (by simp), hji, (Bool.and_eq_true .. |>.mp hcond).1⟩
      · rw [if_neg hcond] at hq
        exact hs q hq

theorem bestParentIdx_lt {sorted : List FlatEntry}
    (hsrt : sorted.Pairwise (fun a b => entryLt b a = false)) {i p : Nat}
    (hi : i < sorted.length) (h : bestParentIdx (gids sorted) i = some p) : p < i := by
  obtain ⟨hpn, hpi, hanc⟩ := bestParentIdx_spec (gids sorted) i h
  have hpn' : p < sorted.length := by simpa [gids] using hpn
  have hdc : dotCount ((gids sorted).getD p "") < dotCount ((gids sorted).getD i "") :=
    dotAnc_dotCount hanc
  rw [gids_getD hpn', gids_getD hi] at hdc
  have hlt : entryLt (sorted.getD p default) (sorted.getD i default) = true :=
    entryLt_of_dotCount hdc
  by_contra hcon
  push_neg at hcon
  have hip : i < p := by omega
  have hpw := List.pairwise_iff_getElem.mp hsrt i p hi hpn' hip
  rw [List.getD_eq_getElem _ _ hpn', List.getD_eq_getElem _ _ hi] at hlt
  rw [hlt] at hpw
  simp at hpw

/-! ## Partial element lemmas -/

theorem decide_le_congr_of_ne {k j : Nat} (h : j ≠ k) :
    (decide (k ≤ j) : Bool) = decide (k + 1 ≤ j) := by
  rcases Nat.lt_or_ge j k with h' | h'
  · rw [decide_eq_false (by omega), decide_eq_false (by omega)]
  · rw [decide_eq_true (by omega), decide_eq_true (by omega)]

theorem descRange_filter_split {n k : Nat} (hk : k < n) (P : Nat → Bool) (hP : P k = true) :
    ((List.range n).reverse).filter (fun j => decide (k ≤ j) && P j) =
      (((List.range n).reverse).filter (fun j => decide (k + 1 ≤ j) && P j)) ++ [k] := by
  induction n with
  | zero => omega
  | succ m ih =>
    rw [List.range_succ, List.reverse_append, List.reverse_singleton,
      List.singleton_append, List.filter_cons, List.filter_cons]
    by_cases hkm : k = m
    · subst hkm
      rw [decide_eq_true (le_refl k), hP]
      have hrest : ∀ (Q : Nat → Bool) (c : Nat), k ≤ c →
          ((List.range k).reverse).filter (fun j => decide (c ≤ j) && Q j) = [] := by
        intro Q c hc
        rw [List.filter_eq_nil_iff]
        intro j hj
        have : j < k := List.mem_range.mp (List.mem_reverse.mp hj)
        simp [decide_eq_false (by omega : ¬ (c ≤ j))]
      rw [hrest _ k (le_refl k), hrest _ (k + 1) (by omega)]
      simp
    · have hk' : k < m := by omega
      have h1 : (decide (k ≤ m) && P m) = (decide (k + 1 ≤ m) && P m) := by
        rw [decide_eq_true (by omega : k ≤ m), decide_eq_true (by omega : k + 1 ≤ m)]
      rw [h1, ih hk']
      by_cases hPm : (decide (k + 1 ≤ m) && P m) = true
      · rw [if_pos hPm, if_pos hPm]
        simp
      · rw [if_neg hPm, if_neg hPm]

theorem childIdxsFrom_step_none {globals : List String} {k : Nat}
    (hpar : bestParentIdx globals k = none) (i : Nat) :
    childIdxsFrom globals k i = childIdxsFrom globals (k + 1) i := by
  rw [childIdxsFrom, childIdxsFrom]
  apply List.filter_congr
  intro j _
  by_cases hjk : j = k
  · subst hjk
    rw [hpar]
    simp
  · rw [decide_le_congr_of_ne hjk]

theorem childIdxsFrom_step_ne {globals : List String} {k p : Nat}
    (hpar : bestParentIdx globals k = some p) {i : Nat} (hip : i ≠ p) :
    childIdxsFrom globals k i = childIdxsFrom globals (k + 1) i := by
  rw [childIdxsFrom, childIdxsFrom]
  apply List.filter_congr
  intro j _
  by_cases hjk : j = k
  · subst hjk
    rw [hpar]
    simp [Ne.symm hip]
  · rw [decide_le_congr_of_ne hjk]

theorem childIdxsFrom_step_eq {globals : List String} {k p : Nat}
    (hk : k < globals.length) (hpar : bestParentIdx globals k = some p) :
    childIdxsFrom globals k p = childIdxsFrom globals (k + 1) p ++ [k] := by
  rw [childIdxsFrom, childIdxsFrom]
  exact descRange_filter_split hk _ (by rw [hpar]; simp)

theorem uiElement_children_nil (e : UiElement) (h : e.children = []) :
    { e with children := ([] : List UiElement) } = e := by
  cases e
  simp only at h
  simp [h]

theorem partialElem_succ_self (sorted : List FlatEntry) (i : Nat) :
    partialElem sorted (i + 1) i = specSubtree sorted i := by
  rw [partialElem, specSubtree, List.attach_map_val]
  have : childIdxsFrom (sorted.map (·.global_id)) (i + 1) i =
      specChildIdxs (sorted.map (·.global_id)) i := by
    rw [childIdxsFrom, specChildIdxs]
    apply List.filter_congr
    intro j _
    rw [show (decide (i + 1 ≤ j) : Bool) = decide (i < j) from
      decide_eq_decide.mpr (by omega)]
  rw [this]

theorem partialElem_zero (sorted : List FlatEntry)
    (hsrt : sorted.Pairwise (fun a b => entryLt b a = false)) (i : Nat) :
    partialElem sorted 0 i = specSubtree sorted i := by
  rw [partialElem, specSubtree, List.attach_map_val]
  have : childIdxsFrom (sorted.map (·.global_id)) 0 i =
      specChildIdxs (sorted.map (·.global_id)) i := by
    rw [childIdxsFrom, specChildIdxs]
    apply List.filter_congr
    intro j hj
    have hjn : j < sorted.length := by
      have := List.mem_range.mp (List.mem_reverse.mp hj)
      simpa using this
    by_cases hp : bestParentIdx (sorted.map (·.global_id)) j = some i
    · have hlt : i < j := bestParentIdx_lt hsrt hjn (by rw [← hp]; rfl)
      rw [hp]
      simp [decide_eq_true (Nat.zero_le j), decide_eq_true hlt]
    · have : (bestParentIdx (sorted.map (·.global_id)) j == some i) = false := by
        simpa using hp
      rw [this]
      simp
  rw [this]

/-! ## The fold invariant: base case -/

theorem buildInv_init (sorted : List FlatEntry) (hnd : (fids sorted).Nodup)
    (hch : ∀ e ∈ sorted, e.element.children = []) :
    BuildInv sorted sorted.length (emapOf sorted, []) := by
  have hkeys : alKeys (emapOf sorted) = fids sorted := emapOf_keys sorted hnd
  refine ⟨?_, ?_, ?_, ?_, ?_⟩
  · rw [hkeys]
    exact hnd
  · intro id
    simp only [alGet, Option.isSome_none, Bool.false_eq_true, false_iff]
    rintro ⟨i, h1, h2, _⟩
    omega
  · intro i h1 h2 _
    omega
  · intro i hi _
    rw [emap_lookup sorted hnd hi]
    congr 1
    rw [partialElem]
    have hempty : childIdxsFrom (sorted.map (·.global_id)) sorted.length i = [] := by
      rw [childIdxsFrom, List.filter_eq_nil_iff]
      intro j hj
      have : j < sorted.length := by
        have := List.mem_range.mp (List.mem_reverse.mp hj)
        simpa using this
      simp [decide_eq_false (by omega : ¬ (sorted.length ≤ j))]
    rw [hempty, List.map_nil]
    exact (uiElement_children_nil _ (hch _ (by
      rw [List.getD_eq_getElem _ _ hi]
      exact List.getElem_mem hi))).symm
  · intro id hid
    apply alGet_eq_none
    rw [hkeys]
    intro hmem
    obtain ⟨i, hi, heq⟩ := List.mem_iff_getElem.mp hmem
    have hi' : i < sorted.length := by simpa [fids] using hi
    exact hid i hi' (by rw [List.getD_eq_getElem _ _ hi, heq])

/-! ## The fold invariant: inductive step -/

theorem buildInv_step (sorted : List FlatEntry) (hnd : (fids sorted).Nodup)
    (hsrt : sorted.Pairwise (fun a b => entryLt b a = false)) {k : Nat}
    (hk : k < sorted.length) (st : List (String × UiElement) × List (String × Bool))
    (h : BuildInv sorted (k + 1) st) :
    BuildInv sorted k (assignStep (gmapOf sorted) (fids sorted) st k) := by
  obtain ⟨hkeys, hass, hnone, hsome, hout⟩ := h
  have hchild_global : (alGet (gmapOf sorted) ((fids sorted).getD k "")).getD "" =
      (gids sorted).getD k "" := by
    rw [gmap_lookup sorted hnd hk]
    rfl
  have hfbp := findBestParent_eq sorted hnd k
  have hfidne : ∀ {i j : Nat}, i < sorted.length → j < sorted.length → i ≠ j →
      (fids sorted).getD i "" ≠ (fids sorted).getD j "" := by
    intro i j hi hj hne heq
    rw [List.getD_eq_getElem _ _ (by simpa [fids] using hi),
      List.getD_eq_getElem _ _ (by simpa [fids] using hj)] at heq
    exact hne ((List.Nodup.getElem_inj_iff hnd).mp heq)
  rcases hpar : bestParentIdx (gids sorted) k with _ | p
  · -- no parent found: the state is unchanged
    have hstep : assignStep (gmapOf sorted) (fids sorted) st k = st := by
      simp only [assignStep, hchild_global, hfbp, hpar, Option.map_none', Prod.mk.eta]
    rw [hstep]
    refine ⟨hkeys, ?_, ?_, ?_, hout⟩
    · intro id
      rw [hass id]
      constructor
      · rintro ⟨i, h1, h2, h3, h4⟩
        exact ⟨i, by omega, h2, h3, h4⟩
      · rintro ⟨i, h1, h2, h3, h4⟩
        refine ⟨i, ?_, h2, h3, h4⟩
        rcases Nat.eq_or_lt_of_le h1 with rfl | h5
        · exfalso
          rw [hasPar, hpar] at h3
          simp at h3
        · omega
    · intro i h1 h2 h3
      rcases Nat.eq_or_lt_of_le h2 with rfl | h4
      · exfalso
        rw [hasPar, hpar] at h3
        simp at h3
      · exact hnone i h1 (by omega) h3
    · intro i h1 h2
      have h5 : i < k + 1 ∨ hasPar (gids sorted) i = false := by
        rcases h2 with h | h
        · exact .inl (by omega)
        · exact .inr h
      rw [hsome i h1 h5]
      congr 1
      rw [partialElem, partialElem,
        childIdxsFrom_step_none (show bestParentIdx (sorted.map (·.global_id)) k = none
          from hpar) i]
  · -- parent p found
    have hps := bestParentIdx_spec (gids sorted) k hpar
    have hpn : p < sorted.length := by simpa [gids] using hps.1
    have hplt : p < k := bestParentIdx_lt hsrt hk hpar
    have hcidpid : (fids sorted).getD k "" ≠ (fids sorted).getD p "" :=
      hfidne hk hpn (by omega)
    have hchild_get : alGet st.1 ((fids sorted).getD k "") =
        some (partialElem sorted (k + 1) k) :=
      hsome k hk (.inl (by omega))
    have hpe : alGet (alRemove st.1 ((fids sorted).getD k "")) ((fids sorted).getD p "") =
        some (partialElem sorted (k + 1) p) := by
      rw [alGet_alRemove_ne _ (Ne.symm hcidpid)]
      exact hsome p hpn (.inl (by omega))
    have hstep : assignStep (gmapOf sorted) (fids sorted) st k =
        (alInsert (alRemove st.1 ((fids sorted).getD k "")) ((fids sorted).getD p "")
           { partialElem sorted (k + 1) p with
             children := (partialElem sorted (k + 1) p).children ++
               [partialElem sorted (k + 1) k] },
         alInsert st.2 ((fids sorted).getD k "") true) := by
      simp only [assignStep, hchild_global, hfbp, hpar, Option.map_some', hchild_get, hpe]
    have hkG : k < (sorted.map (·.global_id)).length := by simpa using hk
    have hnewPar : { partialElem sorted (k + 1) p with
        children := (partialElem sorted (k + 1) p).children ++
          [partialElem sorted (k + 1) k] } = partialElem sorted k p := by
      rw [partialElem_succ_self]
      have hsplit := childIdxsFrom_step_eq hkG
        (show bestParentIdx (sorted.map (·.global_id)) k = some p from hpar)
      rw [partialElem, partialElem, hsplit]
      simp [List.map_append]
    rw [hstep]
    have hasPark : hasPar (gids sorted) k = true := by
      rw [hasPar, hpar]
      rfl
    refine ⟨?_, ?_, ?_, ?_, ?_⟩
    · exact alKeys_nodup_alInsert _ _ _ (alKeys_nodup_alRemove _ _ hkeys)
    · intro id
      by_cases hid : id = (fids sorted).getD k ""
      · subst hid
        simp only [alGet_alInsert_same, Option.isSome_some, true_iff]
        exact ⟨k, le_refl k, hk, hasPark, rfl⟩
      · rw [alGet_alInsert_ne _ _ hid, hass id]
        constructor
        · rintro ⟨i, h1, h2, h3, h4⟩
          exact ⟨i, by omega, h2, h3, h4⟩
        · rintro ⟨i, h1, h2, h3, h4⟩
          refine ⟨i, ?_, h2, h3, h4⟩
          rcases Nat.eq_or_lt_of_le h1 with rfl | h5
          · exact absurd h4 hid
          · omega
    · intro i h1 h2 h3
      by_cases hik : i = k
      · subst hik
        rw [alGet_alInsert_ne _ _ hcidpid]
        exact alGet_alRemove_same _ _ hkeys
      · have h4 : k + 1 ≤ i := by omega
        have hip : i ≠ p := by omega
        rw [alGet_alInsert_ne _ _ (hfidne h1 hpn hip),
          alGet_alRemove_ne _ (hfidne h1 hk hik)]
        exact hnone i h1 h4 h3
    · intro i h1 h2
      by_cases hip : i = p
      · subst hip
        rw [alGet_alInsert_same, hnewPar]
      · have hik : i ≠ k := by
          rintro rfl
          rcases h2 with h | h
          · omega
          · rw [hasPark] at h
            simp at h
        rw [alGet_alInsert_ne _ _ (hfidne h1 hpn hip),
          alGet_alRemove_ne _ (hfidne h1 hk hik)]
        have h5 : i < k + 1 ∨ hasPar (gids sorted) i = false := by
          rcases h2 with h | h
          · exact .inl (by omega)
          · exact .inr h
        rw [hsome i h1 h5]
        congr 1
        rw [partialElem, partialElem,
          childIdxsFrom_step_ne (show bestParentIdx (sorted.map (·.global_id)) k = some p
            from hpar) (show i ≠ p from hip)]
    · intro id hid
      rw [alGet_alInsert_ne _ _ (hid p hpn),
        alGet_alRemove_ne _ (hid k hk)]
      exact hout id hid

/-! ## The fold invariant: accumulation and root collection -/

theorem fids_getD_inj (sorted : List FlatEntry) (hnd : (fids sorted).Nodup) {i j : Nat}
    (hi : i < sorted.length) (hj : j < sorted.length)
    (h : (fids sorted).getD i "" = (fids sorted).getD j "") : i = j := by
  rw [List.getD_eq_getElem _ _ (by simpa [fids] using hi),
    List.getD_eq_getElem _ _ (by simpa [fids] using hj)] at h
  exact (List.Nodup.getElem_inj_iff hnd).mp h

theorem buildInv_fold (sorted : List FlatEntry) (hnd : (fids sorted).Nodup)
    (hsrt : sorted.Pairwise (fun a b => entryLt b a = false))
    (hch : ∀ e ∈ sorted, e.element.children = []) :
    ∀ m, m ≤ sorted.length →
      BuildInv sorted (sorted.length - m)
        (((List.range' (sorted.length - m) m).reverse).foldl
          (assignStep (gmapOf sorted) (fids sorted)) (emapOf sorted, [])) := by
  intro m
  induction m with
  | zero =>
    intro _
    simpa using buildInv_init sorted hnd hch
  | succ m' ih =>
    intro hm
    have hk : sorted.length - (m' + 1) < sorted.length := by omega
    have heq : List.range' (sorted.length - (m' + 1)) (m' + 1) =
        (sorted.length - (m' + 1)) :: List.range' (sorted.length - m') m' := by
      rw [List.range'_succ,
        show sorted.length - (m' + 1) + 1 = sorted.length - m' from by omega]
    rw [heq, List.reverse_cons, List.foldl_append]
    simp only [List.foldl_cons, List.foldl_nil]
    have h1 := ih (by omega)
    have h2 : sorted.length - m' = (sorted.length - (m' + 1)) + 1 := by omega
    nth_rewrite 1 [h2] at h1
    exact buildInv_step sorted hnd hsrt hk _ h1

theorem bool_not_isSome_eq_beq_none {α : Type} [DecidableEq α] (o : Option α) :
    (!o.isSome) = (o == none) := by
  cases o <;> rfl

theorem collectRoots_spec (sorted : List FlatEntry) (hnd : (fids sorted).Nodup)
    (assigned : List (String × Bool))
    (hass : ∀ id, (alGet assigned id).isSome = true ↔
      ∃ i, i < sorted.length ∧ hasPar (gids sorted) i = true ∧
        id = (fids sorted).getD i "") :
    ∀ (fuel m : Nat) (elems : List (String × UiElement)), sorted.length - m = fuel →
      (∀ i, m ≤ i → i < sorted.length →
        (hasPar (gids sorted) i = true → alGet elems ((fids sorted).getD i "") = none) ∧
        (hasPar (gids sorted) i = false →
          alGet elems ((fids sorted).getD i "") = some (specSubtree sorted i))) →
      collectRoots assigned ((fids sorted).drop m) elems =
        ((List.range' m (sorted.length - m)).filter
          (fun i => !hasPar (gids sorted) i)).map (specSubtree sorted) := by
  intro fuel
  induction fuel with
  | zero =>
    intro m elems hfm _
    have hmn : sorted.length ≤ m := by omega
    rw [List.drop_eq_nil_of_le (by simpa [fids] using hmn), hfm]
    simp [collectRoots]
  | succ fuel ih =>
    intro m elems hfm helems
    have hmn : m < sorted.length := by omega
    have hmf : m < (fids sorted).length := by simpa [fids] using hmn
    have hgetd : (fids sorted)[m] = (fids sorted).getD m "" :=
      (List.getD_eq_getElem _ _ hmf).symm
    rw [List.drop_eq_getElem_cons hmf, hgetd, collectRoots]
    have hr : List.range' m (sorted.length - m) =
        m :: List.range' (m + 1) (sorted.length - (m + 1)) := by
      rw [show sorted.length - m = (sorted.length - (m + 1)) + 1 from by omega,
        List.range'_succ]
    by_cases hpm : hasPar (gids sorted) m = true
    · have hiss : (alGet assigned ((fids sorted).getD m "")).isSome = true :=
        (hass _).mpr ⟨m, hmn, hpm, rfl⟩
      rw [if_pos hiss]
      rw [ih (m + 1) elems (by omega) (fun i h1 h2 => helems i (by omega) h2)]
      rw [hr, List.filter_cons,
        show (!hasPar (gids sorted) m) = false from by rw [hpm]; rfl]
      simp
    · have hpm' : hasPar (gids sorted) m = false := Bool.eq_false_iff.mpr hpm
      have hnotass : ¬ (alGet assigned ((fids sorted).getD m "")).isSome = true := by
        intro hcon
        obtain ⟨i, hi, hip, heq⟩ := (hass _).mp hcon
        have hmi : m = i := fids_getD_inj sorted hnd hmn hi heq
        subst hmi
        rw [hpm'] at hip
        simp at hip
      rw [if_neg hnotass, (helems m (le_refl m) hmn).2 hpm']
      rw [ih (m + 1) (alRemove elems ((fids sorted).getD m "")) (by omega) ?succmaps]
      case succmaps =>
        intro i h1 h2
        have hne : (fids sorted).getD i "" ≠ (fids sorted).getD m "" := by
          intro heq
          have := fids_getD_inj sorted hnd h2 hmn heq
          omega
        rw [alGet_alRemove_ne _ hne]
        exact helems i (by omega) h2
      rw [hr, List.filter_cons,
        show (!hasPar (gids sorted) m) = true from by rw [hpm']; rfl]
      simp

theorem buildFromSorted_eq_specForest (sorted : List FlatEntry)
    (hnd : (fids sorted).Nodup)
    (hsrt : sorted.Pairwise (fun a b => entryLt b a = false))
    (hch : ∀ e ∈ sorted, e.element.children = []) :
    buildFromSorted sorted = specForest sorted := by
  have hInv := buildInv_fold sorted hnd hsrt hch sorted.length (le_refl _)
  rw [Nat.sub_self] at hInv
  obtain ⟨_, hass, hnone, hsome, _⟩ := hInv
  show collectRoots
      (((List.range (fids sorted).length).reverse).foldl
        (assignStep (gmapOf sorted) (fids sorted)) (emapOf sorted, [])).2
      (fids sorted)
      (((List.range (fids sorted).length).reverse).foldl
        (assignStep (gmapOf sorted) (fids sorted)) (emapOf sorted, [])).1
    = specForest sorted
  rw [show (fids sorted).length = sorted.length from by simp [fids],
    List.range_eq_range']
  have hcollect := collectRoots_spec sorted hnd _
    (fun id => by
      rw [hass id]
      constructor
      · rintro ⟨i, _, h2, h3, h4⟩
        exact ⟨i, h2, h3, h4⟩
      · rintro ⟨i, h2, h3, h4⟩
        exact ⟨i, Nat.zero_le i, h2, h3, h4⟩)
    sorted.length 0 _ (by omega)
    (fun i _ h2 => ⟨fun hp => hnone i h2 (Nat.zero_le i) hp,
      fun hp => by
        rw [hsome i h2 (.inr hp)]
        rw [partialElem_zero sorted hsrt i]⟩)
  rw [List.drop_zero] at hcollect
  rw [hcollect, Nat.sub_zero]
  rw [specForest]
  rw [← List.range_eq_range']
  apply congrArg
  apply List.filter_congr
  intro i _
  rw [hasPar, bool_not_isSome_eq_beq_none]
  rfl

/-! ## Permutation invariance of the tree builder -/

theorem build_element_tree_perm (w : String) {l l' : List InspectorElementInfo}
    (hg : (l.map (·.global_id)).Nodup) (hp : l.Perm l') :
    build_element_tree w l = build_element_tree w l' := by
  rw [build_element_tree, build_element_tree]
  congr 1
  apply stSort_eq_of_perm (hp.map (mkFlatEntry w))
  rw [List.Nodup, List.pairwise_map] at hg
  rw [List.pairwise_map]
  refine hg.imp ?_
  intro a b hne heq
  apply hne
  have := congrArg Prod.snd heq
  simpa [ekey, mkFlatEntry] using this

/-! ## Claim theorems (part 2) -/

/-- C4, counterexample: with two records sharing the global id `"a"` (instances 1
and 2) and a record `"a.b"`, the record list and its permutation that swaps the two
`"a"` records produce different parent/child edge sets (identifying nodes by
composite id): `"a.b"` attaches to whichever `"a"` record comes first in input
order, because the stable sort keeps equal-key entries in input order and the scan
takes the first longest match.  So the claim, as stated for every record set, is
false. -/
theorem C4_order_independence_counterexample :
    ([⟨"a", 1, "s.rs"⟩, ⟨"a", 2, "s.rs"⟩, ⟨"a.b", 3, "s.rs"⟩] :
        List InspectorElementInfo).Perm
      [⟨"a", 2, "s.rs"⟩, ⟨"a", 1, "s.rs"⟩, ⟨"a.b", 3, "s.rs"⟩] ∧
    ("w/a[1]", "w/a.b[3]") ∈
      edgesForest (build_element_tree "w"
        [⟨"a", 1, "s.rs"⟩, ⟨"a", 2, "s.rs"⟩, ⟨"a.b", 3, "s.rs"⟩]) ∧
    ("w/a[1]", "w/a.b[3]") ∉
      edgesForest (build_element_tree "w"
        [⟨"a", 2, "s.rs"⟩, ⟨"a", 1, "s.rs"⟩, ⟨"a.b", 3, "s.rs"⟩]) := by
  refine ⟨by decide, by decide, by decide⟩

/-- C4, amended: when the records' global ids are pairwise distinct (so that the
sort has no ties), the builder is order-independent: any two permutations of the
record set produce identical forests, and in particular the same parent/child
edges. -/
theorem C4_order_independence_amended (w : String) (l l' : List InspectorElementInfo)
    (hg : (l.map (·.global_id)).Nodup) (hp : l.Perm l') :
    edgesForest (build_element_tree w l) = edgesForest (build_element_tree w l') ∧
    build_element_tree w l = build_element_tree w l' := by
  have h := build_element_tree_perm w hg hp
  exact ⟨congrArg edgesForest h, h⟩

/-- Witness for the amended C4 at a concrete input. -/
theorem C4_order_independence_amended_witness :
    edgesForest (build_element_tree "w" [⟨"a.b", 2, "s.rs"⟩, ⟨"a", 1, "s.rs"⟩]) =
      edgesForest (build_element_tree "w" [⟨"a", 1, "s.rs"⟩, ⟨"a.b", 2, "s.rs"⟩]) :=
  (C4_order_independence_amended "w" _ _ (by decide) (by decide)).1

/-- C8, counterexample: a query equal to a later window's identifier can be
shadowed by an earlier window whose inspector records match the query as a
global-id suffix — the handler then returns that record as a leaf element, not the
window.  Here the query `"W2"` equals the id of the second window, but the first
window's record with global id `"x.W2"` wins. -/
theorem C8_get_element_counterexample :
    (∃ w ∈ [(⟨"W1", [⟨"x.W2", 1, "f.rs"⟩]⟩ : WindowState), ⟨"W2", []⟩], w.id = "W2") ∧
    handle_get_element "W2" [⟨"W1", [⟨"x.W2", 1, "f.rs"⟩]⟩, ⟨"W2", []⟩] =
      .ok { id := "W1/x.W2[1]", element_type := "f", children := [],
            source_location := some "f.rs" } ∧
    (∀ e : UiElement,
      handle_get_element "W2" [⟨"W1", [⟨"x.W2", 1, "f.rs"⟩]⟩, ⟨"W2", []⟩] = .ok e →
        e.id ≠ "W2" ∧ e.element_type ≠ "Window") := by
  refine ⟨⟨⟨"W2", []⟩, by simp, rfl⟩, rfl, ?_⟩
  intro e he
  have : e = { id := "W1/x.W2[1]", element_type := "f", children := [],
               source_location := some "f.rs" } := by
    have hok : handle_get_element "W2" [⟨"W1", [⟨"x.W2", 1, "f.rs"⟩]⟩, ⟨"W2", []⟩] =
        .ok { id := "W1/x.W2[1]", element_type := "f", children := [],
              source_location := some "f.rs" } := rfl
    rw [hok] at he
    exact (Except.ok.injEq .. |>.mp he).symm
  subst this
  exact ⟨by decide, by decide⟩

/-- C8, amended: the handler searches windows in enumeration order.  If the query
equals a window's identifier and no earlier window matches it (neither by window
id nor by any inspector record), that window is returned with its children rebuilt
from its inspector records; and if no window id and no record matches anywhere, the
result is the not-found error, whose message carries the query as a suffix. -/
theorem C8_get_element_amended :
    (∀ (q : String) (pre post : List WindowState) (w : WindowState),
      (∀ w' ∈ pre, findInWindow q w' = none) → w.id = q →
      handle_get_element q (pre ++ w :: post) =
        .ok { id := w.id, element_type := "Window",
              children := build_element_tree w.id w.inspector,
              source_location := none }) ∧
    (∀ (q : String) (ws : List WindowState),
      (∀ w ∈ ws, w.id ≠ q ∧ ∀ info ∈ w.inspector,
        fullId w.id info.global_id info.instance_id ≠ q ∧ info.global_id ≠ q ∧
          ¬ (q.data.isSuffixOf info.global_id.data = true)) →
      handle_get_element q ws = .error ("Element not found: " ++ q) ∧
        q.data.isSuffixOf ("Element not found: " ++ q).data = true) := by
  constructor
  · intro q pre post w hpre hw
    rw [handle_get_element]
    have hnone : pre.findSome? (findInWindow q) = none := by
      rw [List.findSome?_eq_none_iff]
      exact hpre
    have hfw : findInWindow q w =
        some { id := w.id, element_type := "Window",
               children := build_element_tree w.id w.inspector,
               source_location := none } := by
      rw [findInWindow, if_pos hw]
    rw [List.findSome?_append, hnone, List.findSome?_cons, hfw]
    rfl
  · intro q ws hws
    constructor
    · rw [handle_get_element]
      have hnone : ws.findSome? (findInWindow q) = none := by
        rw [List.findSome?_eq_none_iff]
        intro w hw
        obtain ⟨hid, hrec⟩ := hws w hw
        rw [findInWindow, if_neg hid]
        have : w.inspector.find? (matchesQuery w.id q) = none := by
          rw [List.find?_eq_none]
          intro info hinfo
          obtain ⟨h1, h2, h3⟩ := hrec info hinfo
          simp [matchesQuery, h1, h2, h3]
        rw [this]
        rfl
      rw [hnone]
    · rw [List.isSuffixOf_iff_suffix, String.data_append]
      exact List.suffix_append _ _

set_option maxRecDepth 10000 in
/-- Witness for the amended C8 at concrete inputs: the first window's own id is
matched directly, and an unmatched query produces the error naming the query. -/
theorem C8_get_element_amended_witness :
    handle_get_element "W1" [⟨"W1", []⟩] =
      .ok { id := "W1", element_type := "Window", children := build_element_tree "W1" [],
            source_location := none } ∧
    handle_get_element "zzz" [(⟨"W1", [⟨"x.W2", 1, "f.rs"⟩]⟩ : WindowState)] =
      .error ("Element not found: " ++ "zzz") := by
  constructor
  · exact C8_get_element_amended.1 "W1" [] [] ⟨"W1", []⟩ (by intro w' hw'; simp at hw') rfl
  · exact (C8_get_element_amended.2 "zzz" [⟨"W1", [⟨"x.W2", 1, "f.rs"⟩]⟩]
      (by decide)).1

/-- C3: for any window id, any instance ids, any source locations and any input
order, the four records with global ids `"a"`, `"a.b"`, `"a.b.c"`, `"x"` build the
forest whose roots are exactly the elements for `"a"` and `"x"` (in that order),
with `"a.b"` the only child of `"a"` and `"a.b.c"` the only child of `"a.b"`. -/
theorem C3_four_record_tree (w : String) (i1 i2 i3 i4 : Nat) (s1 s2 s3 s4 : String)
    (l : List InspectorElementInfo)
    (hp : l.Perm [⟨"a", i1, s1⟩, ⟨"a.b", i2, s2⟩, ⟨"a.b.c", i3, s3⟩, ⟨"x", i4, s4⟩]) :
    (build_element_tree w l).map
        (fun e => (e.id, e.children.map (fun c => (c.id, c.children.map (·.id))))) =
      [(fullId w "a" i1, [(fullId w "a.b" i2, [fullId w "a.b.c" i3])]),
       (fullId w "x" i4, [])] := by
  have hfne : ∀ (g g' : String) (i i' : Nat), g ≠ g' → fullId w g i ≠ fullId w g' i' := by
    intro g g' i i' hne heq
    exact hne (fullId_inj heq).1
  have hek : ∀ (g g' : String) (i i' : Nat) (s s' : String), g ≠ g' →
      ekey (mkFlatEntry w ⟨g, i, s⟩) ≠ ekey (mkFlatEntry w ⟨g', i', s'⟩) := by
    intro g g' i i' s s' hne heq
    exact hne (congrArg Prod.snd heq)
  have hkeys : (([⟨"a", i1, s1⟩, ⟨"a.b", i2, s2⟩, ⟨"a.b.c", i3, s3⟩, ⟨"x", i4, s4⟩] :
      List InspectorElementInfo).map (mkFlatEntry w)).Pairwise
      (fun a b => ekey a ≠ ekey b) := by
    simp only [List.map_cons, List.map_nil]
    refine .cons ?_ (.cons ?_ (.cons ?_ (.cons ?_ .nil)))
    · intro b hb
      simp only [List.mem_cons, List.not_mem_nil, or_false] at hb
      rcases hb with rfl | rfl | rfl
      · exact hek _ _ _ _ _ _ (by decide)
      · exact hek _ _ _ _ _ _ (by decide)
      · exact hek _ _ _ _ _ _ (by decide)
    · intro b hb
      simp only [List.mem_cons, List.not_mem_nil, or_false] at hb
      rcases hb with rfl | rfl
      · exact hek _ _ _ _ _ _ (by decide)
      · exact hek _ _ _ _ _ _ (by decide)
    · intro b hb
      simp only [List.mem_cons, List.not_mem_nil, or_false] at hb
      rcases hb with rfl
      exact hek _ _ _ _ _ _ (by decide)
    · intro b hb
      simp at hb
  have hsorted : stSort entryLt (l.map (mkFlatEntry w)) =
      [mkFlatEntry w ⟨"a", i1, s1⟩, mkFlatEntry w ⟨"x", i4, s4⟩,
       mkFlatEntry w ⟨"a.b", i2, s2⟩, mkFlatEntry w ⟨"a.b.c", i3, s3⟩] := by
    rw [stSort_eq_of_perm (hp.map (mkFlatEntry w))
      (((hp.map (mkFlatEntry w)).pairwise_iff (fun h => h.symm)).mpr hkeys)]
    rfl
  have hsrt := stSort_pairwise (l.map (mkFlatEntry w))
  have hnd : (fids (stSort entryLt (l.map (mkFlatEntry w)))).Nodup := by
    rw [hsorted]
    show List.Pairwise (fun a b => a ≠ b)
      [fullId w "a" i1, fullId w "x" i4, fullId w "a.b" i2, fullId w "a.b.c" i3]
    refine .cons ?_ (.cons ?_ (.cons ?_ (.cons ?_ .nil)))
    · intro b hb
      simp only [List.mem_cons, List.not_mem_nil, or_false] at hb
      rcases hb with rfl | rfl | rfl
      · exact hfne _ _ _ _ (by decide)
      · exact hfne _ _ _ _ (by decide)
      · exact hfne _ _ _ _ (by decide)
    · intro b hb
      simp only [List.mem_cons, List.not_mem_nil, or_false] at hb
      rcases hb with rfl | rfl
      · exact hfne _ _ _ _ (by decide)
      · exact hfne _ _ _ _ (by decide)
    · intro b hb
      simp only [List.mem_cons, List.not_mem_nil, or_false] at hb
      rcases hb with rfl
      exact hfne _ _ _ _ (by decide)
    · intro b hb
      simp at hb
  have hch : ∀ e ∈ stSort entryLt (l.map (mkFlatEntry w)), e.element.children = [] := by
    rw [hsorted]
    intro e he
    simp only [List.mem_cons, List.not_mem_nil, or_false] at he
    rcases he with rfl | rfl | rfl | rfl <;> rfl
  have hb : build_element_tree w l = specForest (stSort entryLt (l.map (mkFlatEntry w))) :=
    buildFromSorted_eq_specForest _ hnd hsrt hch
  rw [hb, hsorted] at *
  rw [specForest]
  have hG : ([mkFlatEntry w ⟨"a", i1, s1⟩, mkFlatEntry w ⟨"x", i4, s4⟩,
      mkFlatEntry w ⟨"a.b", i2, s2⟩, mkFlatEntry w ⟨"a.b.c", i3, s3⟩].map
        (·.global_id)) = ["a", "x", "a.b", "a.b.c"] := rfl
  rw [hG]
  rw [show ([mkFlatEntry w ⟨"a", i1, s1⟩, mkFlatEntry w ⟨"x", i4, s4⟩,
      mkFlatEntry w ⟨"a.b", i2, s2⟩, mkFlatEntry w ⟨"a.b.c", i3, s3⟩] :
        List FlatEntry).length = 4 from rfl]
  rw [show (List.range 4).filter
      (fun i => bestParentIdx ["a", "x", "a.b", "a.b.c"] i == none) = [0, 1] from by decide]
  have hc0 : specChildIdxs ["a", "x", "a.b", "a.b.c"] 0 = [2] := by decide
  have hc1 : specChildIdxs ["a", "x", "a.b", "a.b.c"] 1 = [] := by decide
  have hc2 : specChildIdxs ["a", "x", "a.b", "a.b.c"] 2 = [3] := by decide
  have hc3 : specChildIdxs ["a", "x", "a.b", "a.b.c"] 3 = [] := by decide
  have hu : ∀ i : Nat, specSubtree [mkFlatEntry w ⟨"a", i1, s1⟩,
      mkFlatEntry w ⟨"x", i4, s4⟩, mkFlatEntry w ⟨"a.b", i2, s2⟩,
      mkFlatEntry w ⟨"a.b.c", i3, s3⟩] i =
      { (([mkFlatEntry w ⟨"a", i1, s1⟩, mkFlatEntry w ⟨"x", i4, s4⟩,
          mkFlatEntry w ⟨"a.b", i2, s2⟩, mkFlatEntry w ⟨"a.b.c", i3, s3⟩] :
            List FlatEntry).getD i default).element with
        children := (specChildIdxs ["a", "x", "a.b", "a.b.c"] i).map
          (specSubtree [mkFlatEntry w ⟨"a", i1, s1⟩, mkFlatEntry w ⟨"x", i4, s4⟩,
            mkFlatEntry w ⟨"a.b", i2, s2⟩, mkFlatEntry w ⟨"a.b.c", i3, s3⟩]) } := by
    intro i
    rw [specSubtree, List.attach_map_val, hG]
  simp only [List.map_cons, List.map_nil]
  rw [hu 0, hu 1, hc0, hc1, List.map_cons, List.map_nil, hu 2, hc2, List.map_cons,
    List.map_nil, hu 3, hc3, List.map_nil]
  rfl

set_option maxRecDepth 10000 in
/-- Witness for C3: a concrete shuffled input order with concrete instance ids. -/
theorem C3_four_record_tree_witness :
    (build_element_tree "w" [⟨"a.b.c", 3, "c.rs"⟩, ⟨"x", 4, "d.rs"⟩, ⟨"a", 1, "a.rs"⟩,
        ⟨"a.b", 2, "b.rs"⟩]).map
        (fun e => (e.id, e.children.map (fun c => (c.id, c.children.map (·.id))))) =
      [(fullId "w" "a" 1, [(fullId "w" "a.b" 2, [fullId "w" "a.b.c" 3])]),
       (fullId "w" "x" 4, [])] :=
  C3_four_record_tree "w" 1 2 3 4 "a.rs" "b.rs" "c.rs" "d.rs" _ (by decide)

/-! ## Node counting over the assembled forest -/

theorem uiElement_update_children_self (e : UiElement) :
    { e with children := e.children } = e := by
  cases e
  rfl

theorem countIdForest_append (x : String) (F G : List UiElement) :
    countIdForest x (F ++ G) = countIdForest x F + countIdForest x G := by
  induction F with
  | nil => simp [countIdForest]
  | cons c cs ih =>
    simp only [List.cons_append, countIdForest, List.append_eq, ih]
    omega

theorem totalNodesForest_append (F G : List UiElement) :
    totalNodesForest (F ++ G) = totalNodesForest F + totalNodesForest G := by
  induction F with
  | nil => simp [totalNodesForest]
  | cons c cs ih =>
    simp only [List.cons_append, totalNodesForest, List.append_eq, ih]
    omega

theorem countId_snoc_children (x : String) (e : UiElement) (cs : List UiElement)
    (c : UiElement) :
    UiElement.countId x { e with children := cs ++ [c] } =
      UiElement.countId x { e with children := cs } + UiElement.countId x c := by
  cases e
  simp only [UiElement.countId, countIdForest_append, countIdForest]
  omega

theorem totalNodes_snoc_children (e : UiElement) (cs : List UiElement) (c : UiElement) :
    UiElement.totalNodes { e with children := cs ++ [c] } =
      UiElement.totalNodes { e with children := cs } + UiElement.totalNodes c := by
  cases e
  simp only [UiElement.totalNodes, totalNodesForest_append, totalNodesForest]
  omega

theorem childIdxsFrom_of_ge {globals : List String} {k : Nat}
    (h : globals.length ≤ k) (i : Nat) : childIdxsFrom globals k i = [] := by
  rw [childIdxsFrom, List.filter_eq_nil_iff]
  intro j hj
  have : j < globals.length := List.mem_range.mp (List.mem_reverse.mp hj)
  simp [decide_eq_false (by omega : ¬ (k ≤ j))]

theorem specPoolSum_step (sorted : List FlatEntry)
    (hsrt : sorted.Pairwise (fun a b => entryLt b a = false))
    (φ : UiElement → Nat)
    (hφ : ∀ (e : UiElement) (cs : List UiElement) (c : UiElement),
      φ { e with children := cs ++ [c] } = φ { e with children := cs } + φ c)
    {k : Nat} (hk : k < sorted.length) :
    specPoolSum sorted φ k = specPoolSum sorted φ (k + 1) := by
  rcases hpar : bestParentIdx (sorted.map (·.global_id)) k with _ | p
  · rw [specPoolSum, specPoolSum]
    have hset : liveSet (sorted.map (·.global_id)) k =
        liveSet (sorted.map (·.global_id)) (k + 1) := by
      rw [liveSet, liveSet]
      apply Finset.filter_congr
      intro i _
      by_cases hik : i = k
      · subst hik
        simp [hpar]
      · constructor
        · rintro (h | h)
          · exact .inl (by omega)
          · exact .inr h
        · rintro (h | h)
          · exact .inl (by omega)
          · exact .inr h
    rw [hset]
    apply Finset.sum_congr rfl
    intro i _
    congr 1
    rw [partialElem, partialElem, childIdxsFrom_step_none hpar i]
  · have hpn : p < sorted.length := by
      have := (bestParentIdx_spec _ k hpar).1
      simpa using this
    have hplt : p < k :=
      bestParentIdx_lt hsrt hk (show bestParentIdx (gids sorted) k = some p from hpar)
    rw [specPoolSum, specPoolSum]
    have hkmem : k ∈ liveSet (sorted.map (·.global_id)) (k + 1) := by
      rw [liveSet]
      simp only [Finset.mem_filter, Finset.mem_range, List.length_map]
      exact ⟨hk, .inl (by omega)⟩
    have hset : liveSet (sorted.map (·.global_id)) k =
        (liveSet (sorted.map (·.global_id)) (k + 1)).erase k := by
      rw [liveSet, liveSet]
      ext i
      simp only [Finset.mem_erase, Finset.mem_filter, Finset.mem_range]
      constructor
      · rintro ⟨hin, h⟩
        have hik : i ≠ k := by
          rintro rfl
          rcases h with h | h
          · omega
          · rw [hpar] at h
            exact Option.noConfusion h
        refine ⟨hik, hin, ?_⟩
        rcases h with h | h
        · exact .inl (by omega)
        · exact .inr h
      · rintro ⟨hik, hin, h⟩
        refine ⟨hin, ?_⟩
        rcases h with h | h
        · exact .inl (by omega)
        · exact .inr h
    have hpmem : p ∈ (liveSet (sorted.map (·.global_id)) (k + 1)).erase k := by
      rw [liveSet]
      simp only [Finset.mem_erase, Finset.mem_filter, Finset.mem_range, List.length_map]
      exact ⟨by omega, hpn, .inl (by omega)⟩
    rw [← Finset.add_sum_erase _ _ hkmem, hset,
      ← Finset.add_sum_erase _ (fun i => φ (partialElem sorted k i)) hpmem,
      ← Finset.add_sum_erase _ (fun i => φ (partialElem sorted (k + 1) i)) hpmem]
    have hsum :
        Finset.sum (((liveSet (sorted.map (·.global_id)) (k + 1)).erase k).erase p)
          (fun i => φ (partialElem sorted k i)) =
        Finset.sum (((liveSet (sorted.map (·.global_id)) (k + 1)).erase k).erase p)
          (fun i => φ (partialElem sorted (k + 1) i)) := by
      apply Finset.sum_congr rfl
      intro i hi
      have hip : i ≠ p := (Finset.mem_erase.mp hi).1
      congr 1
      rw [partialElem, partialElem, childIdxsFrom_step_ne hpar hip]
    rw [hsum]
    have hkG : k < (sorted.map (·.global_id)).length := by simpa using hk
    have hfp : φ (partialElem sorted k p) =
        φ (partialElem sorted (k + 1) p) + φ (partialElem sorted (k + 1) k) := by
      rw [partialElem_succ_self]
      have hthis : partialElem sorted k p = { partialElem sorted (k + 1) p with
          children := (partialElem sorted (k + 1) p).children ++
            [specSubtree sorted k] } := by
        simp only [partialElem]
        rw [childIdxsFrom_step_eq hkG hpar]
        simp [List.map_append]
      rw [hthis]
      have h2 := hφ (partialElem sorted (k + 1) p)
        (partialElem sorted (k + 1) p).children (specSubtree sorted k)
      rw [uiElement_update_children_self] at h2
      exact h2
    rw [hfp]
    omega

theorem specPoolSum_zero_eq_top (sorted : List FlatEntry)
    (hsrt : sorted.Pairwise (fun a b => entryLt b a = false))
    (φ : UiElement → Nat)
    (hφ : ∀ (e : UiElement) (cs : List UiElement) (c : UiElement),
      φ { e with children := cs ++ [c] } = φ { e with children := cs } + φ c) :
    specPoolSum sorted φ 0 = specPoolSum sorted φ sorted.length := by
  suffices H : ∀ m, m ≤ sorted.length →
      specPoolSum sorted φ (sorted.length - m) = specPoolSum sorted φ sorted.length by
    have := H sorted.length (le_refl _)
    rwa [Nat.sub_self] at this
  intro m
  induction m with
  | zero => intro _; rw [Nat.sub_zero]
  | succ m' ih =>
    intro hm
    have hk : sorted.length - (m' + 1) < sorted.length := by omega
    rw [specPoolSum_step sorted hsrt φ hφ hk,
      show sorted.length - (m' + 1) + 1 = sorted.length - m' from by omega]
    exact ih (by omega)

theorem specPoolSum_top (sorted : List FlatEntry) (φ : UiElement → Nat) :
    specPoolSum sorted φ sorted.length =
      Finset.sum (Finset.range sorted.length)
        (fun i => φ { (sorted.getD i default).element with
          children := ([] : List UiElement) }) := by
  rw [specPoolSum, liveSet]
  rw [Finset.filter_true_of_mem (fun i hi => .inl (by
    simpa using Finset.mem_range.mp hi))]
  apply Finset.sum_congr (by simp)
  intro i _
  congr 1
  rw [partialElem, childIdxsFrom_of_ge (by simp) i, List.map_nil]

theorem specPoolSum_bot (sorted : List FlatEntry)
    (hsrt : sorted.Pairwise (fun a b => entryLt b a = false)) (φ : UiElement → Nat) :
    specPoolSum sorted φ 0 =
      Finset.sum ((Finset.range sorted.length).filter
        (fun i => bestParentIdx (sorted.map (·.global_id)) i = none))
        (fun i => φ (specSubtree sorted i)) := by
  rw [specPoolSum, liveSet]
  have hfc : (Finset.range (sorted.map (·.global_id)).length).filter
      (fun i => i < 0 ∨ bestParentIdx (sorted.map (·.global_id)) i = none) =
      (Finset.range sorted.length).filter
        (fun i => bestParentIdx (sorted.map (·.global_id)) i = none) := by
    rw [show (sorted.map (·.global_id)).length = sorted.length from by simp]
    apply Finset.filter_congr
    intro i _
    constructor
    · rintro (h | h)
      · omega
      · exact h
    · intro h
      exact .inr h
  rw [hfc]
  apply Finset.sum_congr rfl
  intro i _
  congr 1
  exact partialElem_zero sorted hsrt i

theorem finset_filter_sum_eq_list_sum (n : Nat) (p : Nat → Prop) [DecidablePred p]
    (f : Nat → Nat) :
    Finset.sum ((Finset.range n).filter p) f =
      (((List.range n).filter (fun i => decide (p i))).map f).sum := by
  induction n with
  | zero => simp
  | succ m ih =>
    rw [Finset.range_succ, Finset.filter_insert, List.range_succ, List.filter_append,
      List.map_append, List.sum_append]
    by_cases hp : p m
    · rw [if_pos hp, Finset.sum_insert (by simp)]
      simp only [List.filter_cons, List.filter_nil, decide_eq_true hp, if_pos]
      simp [ih]
      omega
    · rw [if_neg hp]
      simp only [List.filter_cons, List.filter_nil, decide_eq_false hp]
      simp [ih]

theorem countIdForest_eq_sum (x : String) (F : List UiElement) :
    countIdForest x F = (F.map (fun e => e.countId x)).sum := by
  induction F with
  | nil => rfl
  | cons c cs ih => simp [countIdForest, ih]

theorem totalNodesForest_eq_sum (F : List UiElement) :
    totalNodesForest F = (F.map (fun e => e.totalNodes)).sum := by
  induction F with
  | nil => rfl
  | cons c cs ih => simp [totalNodesForest, ih]

theorem beq_none_eq_decide (o : Option Nat) : (o == none) = decide (o = none) := by
  cases o <;> rfl

theorem build_fids_nodup (w : String) (l : List InspectorElementInfo)
    (hnd : (l.map (fun r => fullId w r.global_id r.instance_id)).Nodup) :
    (fids (stSort entryLt (l.map (mkFlatEntry w)))).Nodup := by
  have hperm : (fids (stSort entryLt (l.map (mkFlatEntry w)))).Perm
      (l.map (fun r => fullId w r.global_id r.instance_id)) := by
    rw [fids]
    refine ((stSort_perm entryLt _).map _).trans ?_
    rw [List.map_map]
    exact List.Perm.rfl
  exact hperm.nodup_iff.mpr hnd

theorem build_children_nil (w : String) (l : List InspectorElementInfo) :
    ∀ e ∈ stSort entryLt (l.map (mkFlatEntry w)), e.element.children = [] := by
  intro e he
  have hmem := (stSort_perm entryLt _).mem_iff.mp he
  obtain ⟨r, _, rfl⟩ := List.mem_map.mp hmem
  rfl

theorem build_element_id (w : String) (l : List InspectorElementInfo) :
    ∀ e ∈ stSort entryLt (l.map (mkFlatEntry w)), e.element.id = e.full_id := by
  intro e he
  have hmem := (stSort_perm entryLt _).mem_iff.mp he
  obtain ⟨r, _, rfl⟩ := List.mem_map.mp hmem
  rfl

theorem build_element_tree_eq_specForest (w : String) (l : List InspectorElementInfo)
    (hnd : (l.map (fun r => fullId w r.global_id r.instance_id)).Nodup) :
    build_element_tree w l = specForest (stSort entryLt (l.map (mkFlatEntry w))) := by
  rw [build_element_tree]
  exact buildFromSorted_eq_specForest _ (build_fids_nodup w l hnd) (stSort_pairwise _)
    (build_children_nil w l)

theorem specForest_measure_sum (sorted : List FlatEntry)
    (hsrt : sorted.Pairwise (fun a b => entryLt b a = false))
    (φ : UiElement → Nat)
    (hφ : ∀ (e : UiElement) (cs : List UiElement) (c : UiElement),
      φ { e with children := cs ++ [c] } = φ { e with children := cs } + φ c) :
    ((specForest sorted).map φ).sum =
      Finset.sum (Finset.range sorted.length)
        (fun i => φ { (sorted.getD i default).element with
          children := ([] : List UiElement) }) := by
  rw [specForest, List.map_map]
  have hfun : (fun i => bestParentIdx (sorted.map (·.global_id)) i == none) =
      (fun i => decide (bestParentIdx (sorted.map (·.global_id)) i = none)) := by
    funext i
    exact beq_none_eq_decide _
  rw [hfun,
    ← finset_filter_sum_eq_list_sum sorted.length
      (fun i => bestParentIdx (sorted.map (·.global_id)) i = none)
      (φ ∘ fun i => specSubtree sorted i)]
  have hb : Finset.sum ((Finset.range sorted.length).filter
      (fun i => bestParentIdx (sorted.map (·.global_id)) i = none))
      (φ ∘ fun i => specSubtree sorted i) = specPoolSum sorted φ 0 := by
    rw [specPoolSum_bot sorted hsrt φ]
    rfl
  rw [hb, specPoolSum_zero_eq_top sorted hsrt φ hφ, specPoolSum_top]

theorem sum_indicator_eq_count (L : List String) (x : String) :
    Finset.sum (Finset.range L.length) (fun i => if L.getD i "" = x then 1 else 0) =
      L.count x := by
  induction L with
  | nil => simp
  | cons h t ih =>
    rw [List.length_cons, Finset.sum_range_succ']
    simp only [List.getD_cons_succ, List.getD_cons_zero, ih]
    by_cases hx : h = x
    · subst hx
      simp [List.count_cons]
    · rw [if_neg hx, List.count_cons]
      simp [Ne.symm hx, hx]

/-! ## Universal structural invariants of the assignment pass (no distinctness needed) -/

theorem sum_alRemove {α : Type} (f : α → Nat) {m : List (String × α)} {k : String}
    {v : α} (h : alGet m k = some v) :
    (m.map (fun p => f p.2)).sum =
      f v + ((alRemove m k).map (fun p => f p.2)).sum := by
  induction m with
  | nil => simp [alGet] at h
  | cons p rest ih =>
    obtain ⟨k', v'⟩ := p
    rw [alGet] at h
    by_cases h2 : k' = k
    · rw [if_pos h2] at h
      simp only [Option.some.injEq] at h
      subst h
      rw [alRemove, if_pos h2]
      simp
    · rw [if_neg h2] at h
      rw [alRemove, if_neg h2]
      simp only [List.map_cons, List.sum_cons, ih h]
      omega

theorem sum_alInsert_present {α : Type} (f : α → Nat) {m : List (String × α)}
    {k : String} (hk : k ∈ alKeys m) (v : α) :
    ((alInsert m k v).map (fun p => f p.2)).sum =
      f v + ((alRemove m k).map (fun p => f p.2)).sum := by
  induction m with
  | nil => simp [alKeys] at hk
  | cons p rest ih =>
    obtain ⟨k', v'⟩ := p
    by_cases h2 : k' = k
    · rw [alInsert, if_pos h2, alRemove, if_pos h2]
      simp
    · rw [alInsert, if_neg h2, alRemove, if_neg h2]
      have hk' : k ∈ alKeys rest := by
        simp only [alKeys, List.map_cons, List.mem_cons] at hk
        rcases hk with h3 | h3
        · exact absurd h3.symm h2
        · exact h3
      simp only [List.map_cons, List.sum_cons, ih hk']
      omega

theorem sum_le_of_sublist {α : Type} (f : α → Nat) {m m' : List α}
    (h : List.Sublist m' m) : (m'.map f).sum ≤ (m.map f).sum := by
  induction h with
  | slnil => simp
  | cons a h ih =>
    simp only [List.map_cons, List.sum_cons]
    omega
  | cons₂ a h ih =>
    simp only [List.map_cons, List.sum_cons]
    omega

theorem edgesForest_append (F G : List UiElement) :
    edgesForest (F ++ G) = edgesForest F ++ edgesForest G := by
  induction F with
  | nil => simp [edgesForest]
  | cons c cs ih =>
    simp only [List.cons_append, edgesForest, List.append_eq, ih, List.append_assoc]

theorem allNodesForest_append (F G : List UiElement) :
    allNodesForest (F ++ G) = allNodesForest F ++ allNodesForest G := by
  induction F with
  | nil => simp [allNodesForest]
  | cons c cs ih =>
    simp only [List.cons_append, allNodesForest, List.append_eq, ih, List.append_assoc]

theorem mem_edgesForest {pc : String × String} : ∀ {F : List UiElement},
    pc ∈ edgesForest F → ∃ r ∈ F, pc ∈ r.edges := by
  intro F
  induction F with
  | nil =>
    intro h
    simp [edgesForest] at h
  | cons c cs ih =>
    intro h
    simp only [edgesForest, List.mem_append] at h
    rcases h with h | h
    · exact ⟨c, by simp, h⟩
    · obtain ⟨r, hr, hpc⟩ := ih h
      exact ⟨r, by simp [hr], hpc⟩

theorem mem_allNodesForest {nd : UiElement} : ∀ {F : List UiElement},
    nd ∈ allNodesForest F → ∃ r ∈ F, nd ∈ r.allNodes := by
  intro F
  induction F with
  | nil =>
    intro h
    simp [allNodesForest] at h
  | cons c cs ih =>
    intro h
    simp only [allNodesForest, List.mem_append] at h
    rcases h with h | h
    · exact ⟨c, by simp, h⟩
    · obtain ⟨r, hr, hnd⟩ := ih h
      exact ⟨r, by simp [hr], hnd⟩

theorem countId_eq (x : String) (e : UiElement) :
    UiElement.countId x e = (if e.id = x then 1 else 0) + countIdForest x e.children := by
  obtain ⟨i, t, cs, s⟩ := e
  rfl

theorem edges_snoc_cases {pc : String × String} (e : UiElement) (c : UiElement)
    (h : pc ∈ UiElement.edges { e with children := e.children ++ [c] }) :
    pc ∈ e.edges ∨ pc = (e.id, c.id) ∨ pc ∈ c.edges := by
  obtain ⟨i, t, cs, s⟩ := e
  simp only [UiElement.edges, List.map_append, edgesForest_append, List.map_cons,
    List.map_nil, edgesForest, List.append_nil, List.mem_append, List.mem_cons,
    List.not_mem_nil, or_false] at h ⊢
  tauto

theorem allNodes_snoc_cases {nd : UiElement} (e : UiElement) (c : UiElement)
    (h : nd ∈ UiElement.allNodes { e with children := e.children ++ [c] }) :
    nd = { e with children := e.children ++ [c] } ∨ nd ∈ allNodesForest e.children ∨
      nd ∈ c.allNodes := by
  obtain ⟨i, t, cs, s⟩ := e
  simp only [UiElement.allNodes, allNodesForest_append, allNodesForest, List.append_nil,
    List.mem_cons, List.mem_append, List.not_mem_nil, or_false] at h ⊢
  tauto

mutual

theorem edges_countP_element (x : String) : ∀ (e : UiElement),
    e.edges.countP (fun pc => pc.2 == x) = countIdForest x e.children
  | .mk i t cs s => by
    have hF := edges_countP_forest x cs
    simp only [UiElement.edges, List.countP_append]
    have hmap : (cs.map (fun c => (i, c.id))).countP (fun pc => pc.2 == x) =
        cs.countP (fun e => e.id == x) := by
      rw [List.countP_map]
      rfl
    rw [hmap]
    omega

theorem edges_countP_forest (x : String) : ∀ (F : List UiElement),
    (edgesForest F).countP (fun pc => pc.2 == x) + F.countP (fun e => e.id == x) =
      countIdForest x F
  | [] => by simp [edgesForest, countIdForest]
  | c :: cs => by
    have hE := edges_countP_element x c
    have hF := edges_countP_forest x cs
    have hc := countId_eq x c
    simp only [edgesForest, countIdForest, List.countP_append, List.countP_cons,
      beq_iff_eq]
    rw [hc] at *
    by_cases hx : c.id = x
    · simp only [hx, if_pos rfl] at *
      omega
    · simp only [if_neg hx] at *
      omega

end

/-- Structural accounting of any forest: each occurrence of an id is either a root
or the child end of exactly one edge. -/
theorem edgesTo_add_rootCount (x : String) (F : List UiElement) :
    edgesTo x F + rootCount x F = countIdForest x F := by
  rw [edgesTo, rootCount]
  exact edges_countP_forest x F

theorem collectRoots_val_mem {assigned : List (String × Bool)} {e : UiElement} :
    ∀ (rest : List String) (elems : List (String × UiElement)),
      e ∈ collectRoots assigned rest elems → ∃ k, (k, e) ∈ elems := by
  intro rest
  induction rest with
  | nil =>
    intro elems h
    simp [collectRoots] at h
  | cons k rest ih =>
    intro elems h
    rw [collectRoots] at h
    by_cases ha : (alGet assigned k).isSome
    · rw [if_pos ha] at h
      exact ih elems h
    · rw [if_neg ha] at h
      rcases hg : alGet elems k with _ | v
      · rw [hg] at h
        exact ih elems h
      · rw [hg] at h
        rcases List.mem_cons.mp h with rfl | h2
        · exact ⟨k, alGet_mem hg⟩
        · obtain ⟨k', hk'⟩ := ih _ h2
          exact ⟨k', alRemove_mem hk'⟩

theorem collectRoots_countId_le (x : String) {assigned : List (String × Bool)} :
    ∀ (rest : List String) (elems : List (String × UiElement)),
      (alKeys elems).Nodup →
      countIdForest x (collectRoots assigned rest elems) ≤
        (elems.map (fun p => UiElement.countId x p.2)).sum := by
  intro rest
  induction rest with
  | nil =>
    intro elems _
    simp [collectRoots, countIdForest]
  | cons k rest ih =>
    intro elems hnd
    rw [collectRoots]
    by_cases ha : (alGet assigned k).isSome
    · rw [if_pos ha]
      exact ih elems hnd
    · rw [if_neg ha]
      rcases hg : alGet elems k with _ | v
      · exact ih elems hnd
      · simp only [countIdForest]
        have h1 := ih (alRemove elems k) (alKeys_nodup_alRemove _ _ hnd)
        have h2 := sum_alRemove (UiElement.countId x) hg
        omega

theorem findBestParent_sound (gmap : List (String × String)) (order : List String)
    (i : Nat) (cg : String) {pid : String}
    (h : findBestParent gmap order i cg = some pid) :
    ∃ j, j < order.length ∧ j ≠ i ∧ pid = order.getD j "" ∧
      dotAnc ((alGet gmap pid).getD "") cg = true := by
  rw [findBestParent] at h
  suffices H : ∀ (js : List Nat), (∀ j ∈ js, j < order.length) →
      ∀ (s : Option String × Nat),
      (∀ q, s.1 = some q → ∃ j, j < order.length ∧ j ≠ i ∧ q = order.getD j "" ∧
        dotAnc ((alGet gmap q).getD "") cg = true) →
      ∀ q, (js.foldl (bestParentStep gmap order i cg) s).1 = some q →
        ∃ j, j < order.length ∧ j ≠ i ∧ q = order.getD j "" ∧
          dotAnc ((alGet gmap q).getD "") cg = true by
    exact H (List.range order.length) (fun j hj => List.mem_range.mp hj) (none, 0)
      (by simp) pid h
  intro js
  induction js with
  | nil =>
    intro _ s hs q hq
    exact hs q hq
  | cons j rest ih =>
    intro hjs s hs
    simp only [List.foldl_cons]
    apply ih (fun j' hj' => hjs j' (by simp [hj']))
    intro q hq
    simp only [bestParentStep] at hq
    by_cases hji : j = i
    · rw [if_pos hji] at hq
      exact hs q hq
    · rw [if_neg hji] at hq
      by_cases hcond : (dotAnc ((alGet gmap (order.getD j "")).getD "") cg &&
          decide (s.2 < ((alGet gmap (order.getD j "")).getD "").data.length)) = true
      · rw [if_pos hcond] at hq
        simp only [Option.some.injEq] at hq
        refine ⟨j, hjs j (by simp), hji, hq.symm ▸ rfl, ?_⟩
        rw [← hq]
        exact ((Bool.and_eq_true _ _).mp hcond).1
      · rw [if_neg hcond] at hq
        exact hs q hq

theorem alKeys_foldl_insert_nodup {α β : Type} (key : β → String) (val : β → α) :
    ∀ (l : List β) (m₀ : List (String × α)), (alKeys m₀).Nodup →
      (alKeys (l.foldl (fun acc e => alInsert acc (key e) (val e)) m₀)).Nodup := by
  intro l
  induction l with
  | nil =>
    intro m₀ h
    exact h
  | cons e rest ih =>
    intro m₀ h
    simp only [List.foldl_cons]
    exact ih _ (alKeys_nodup_alInsert _ _ _ h)

theorem mem_foldl_insert {α β : Type} (key : β → String) (val : β → α) :
    ∀ (l : List β) (m₀ : List (String × α)) {p : String × α},
      p ∈ l.foldl (fun acc e => alInsert acc (key e) (val e)) m₀ →
      p ∈ m₀ ∨ ∃ e ∈ l, p = (key e, val e) := by
  intro l
  induction l with
  | nil =>
    intro m₀ p h
    exact .inl h
  | cons e rest ih =>
    intro m₀ p h
    simp only [List.foldl_cons] at h
    rcases ih _ h with h2 | ⟨e', he', hp⟩
    · rcases alInsert_mem_or h2 with h3 | h3
      · exact .inr ⟨e, by simp, h3⟩
      · exact .inl h3
    · exact .inr ⟨e', by simp [he'], hp⟩

theorem alGet_foldl_insert_isSome_mono {α β : Type} (key : β → String) (val : β → α) :
    ∀ (l : List β) (m₀ : List (String × α)) {k : String},
      (alGet m₀ k).isSome = true →
      (alGet (l.foldl (fun acc e => alInsert acc (key e) (val e)) m₀) k).isSome = true := by
  intro l
  induction l with
  | nil =>
    intro m₀ k h
    exact h
  | cons e rest ih =>
    intro m₀ k h
    simp only [List.foldl_cons]
    apply ih
    by_cases hk : k = key e
    · subst hk
      rw [alGet_alInsert_same]
      rfl
    · rw [alGet_alInsert_ne _ _ hk]
      exact h

theorem alGet_foldl_insert_isSome {α β : Type} (key : β → String) (val : β → α) :
    ∀ (l : List β) (m₀ : List (String × α)) {k : String}, k ∈ l.map key →
      (alGet (l.foldl (fun acc e => alInsert acc (key e) (val e)) m₀) k).isSome = true := by
  intro l
  induction l with
  | nil =>
    intro m₀ k h
    simp at h
  | cons e rest ih =>
    intro m₀ k h
    simp only [List.map_cons, List.mem_cons] at h
    simp only [List.foldl_cons]
    rcases h with rfl | h
    · apply alGet_foldl_insert_isSome_mono
      rw [alGet_alInsert_same]
      rfl
    · exact ih _ h

theorem alGet_foldl_insert_src {α β : Type} (key : β → String) (val : β → α) :
    ∀ (l : List β) (m₀ : List (String × α)) {k : String} {g : α},
      alGet (l.foldl (fun acc e => alInsert acc (key e) (val e)) m₀) k = some g →
      alGet m₀ k = some g ∨ ∃ e ∈ l, k = key e ∧ g = val e := by
  intro l
  induction l with
  | nil =>
    intro m₀ k g h
    exact .inl h
  | cons e rest ih =>
    intro m₀ k g h
    simp only [List.foldl_cons] at h
    rcases ih _ h with h2 | ⟨e', he', hk, hg⟩
    · by_cases hk : k = key e
      · subst hk
        rw [alGet_alInsert_same] at h2
        simp only [Option.some.injEq] at h2
        exact .inr ⟨e, by simp, rfl, h2.symm⟩
      · rw [alGet_alInsert_ne _ _ hk] at h2
        exact .inl h2
    · exact .inr ⟨e', by simp [he'], hk, hg⟩

theorem sum_indicator_le_one {α : Type} (x : String) :
    ∀ (m : List (String × α)), (alKeys m).Nodup →
      (m.map (fun p => if p.1 = x then (1 : Nat) else 0)).sum ≤ 1 := by
  intro m
  induction m with
  | nil =>
    intro _
    simp
  | cons p rest ih =>
    intro hnd
    simp only [alKeys, List.map_cons, List.nodup_cons] at hnd
    simp only [List.map_cons, List.sum_cons]
    by_cases hx : p.1 = x
    · rw [if_pos hx]
      have hz : (rest.map (fun p => if p.1 = x then (1 : Nat) else 0)).sum = 0 := by
        apply List.sum_eq_zero
        intro y hy
        obtain ⟨q, hq, rfl⟩ := List.mem_map.mp hy
        rw [if_neg]
        intro hq1
        apply hnd.1
        rw [hx, ← hq1]
        exact List.mem_map_of_mem _ hq
      omega
    · rw [if_neg hx]
      have := ih hnd.2
      omega

theorem gInv_step (gmap : List (String × String)) (order : List String)
    (HOrder : ∀ j, j < order.length → (alGet gmap (order.getD j "")).isSome = true)
    {k : Nat} (hk : k < order.length)
    (st : List (String × UiElement) × List (String × Bool))
    (h : GInv gmap order (k + 1) st) :
    GInv gmap order k (assignStep gmap order st k) := by
  obtain ⟨hA, hB, hC, hD, hE⟩ := h
  have hdropw : List.Sublist ((order.drop (k + 1)).reverse) ((order.drop k).reverse) := by
    rw [List.drop_eq_getElem_cons hk, List.reverse_cons]
    exact List.sublist_append_left _ _
  have hE' : ∀ p ∈ st.1, ∀ nd ∈ p.2.allNodes,
      List.Sublist (nd.children.map (fun c => c.id)) ((order.drop k).reverse) :=
    fun p hp nd hnd => (hE p hp nd hnd).trans hdropw
  rcases hfbp : findBestParent gmap order k ((alGet gmap (order.getD k "")).getD "")
    with _ | parent_id
  · have hstep : assignStep gmap order st k = st := by
      simp only [assignStep, hfbp]
    rw [hstep]
    exact ⟨hA, hB, hC, hD, hE'⟩
  · rcases hchild : alGet st.1 (order.getD k "") with _ | child_elem
    · have hstep : assignStep gmap order st k = st := by
        simp only [assignStep, hfbp, hchild]
      rw [hstep]
      exact ⟨hA, hB, hC, hD, hE'⟩
    · rcases hpar : alGet (alRemove st.1 (order.getD k "")) parent_id with _ | parent_elem
      · have hstep : assignStep gmap order st k =
            (alRemove st.1 (order.getD k ""), st.2) := by
          simp only [assignStep, hfbp, hchild, hpar]
        rw [hstep]
        refine ⟨alKeys_nodup_alRemove _ _ hA, ?_, ?_, ?_, ?_⟩
        · exact fun p hp => hB p (alRemove_mem hp)
        · intro x
          exact le_trans (sum_le_of_sublist (fun p => UiElement.countId x p.2)
            (alRemove_sublist st.1 (order.getD k ""))) (hC x)
        · exact fun p hp => hD p (alRemove_mem hp)
        · exact fun p hp nd hnd => hE' p (alRemove_mem hp) nd hnd
      · have hstep : assignStep gmap order st k =
            (alInsert (alRemove st.1 (order.getD k "")) parent_id
               { parent_elem with children := parent_elem.children ++ [child_elem] },
             alInsert st.2 (order.getD k "") true) := by
          simp only [assignStep, hfbp, hchild, hpar]
        rw [hstep]
        have hcp : parent_id ≠ order.getD k "" := by
          intro heq
          rw [heq, alGet_alRemove_same _ _ hA] at hpar
          exact Option.noConfusion hpar
        have hparent_mem : (parent_id, parent_elem) ∈ st.1 :=
          alRemove_mem (alGet_mem hpar)
        have hchild_mem : (order.getD k "", child_elem) ∈ st.1 := alGet_mem hchild
        have hpid : parent_elem.id = parent_id := hB _ hparent_mem
        have hcid : child_elem.id = order.getD k "" := hB _ hchild_mem
        have hpkeys : parent_id ∈ alKeys (alRemove st.1 (order.getD k "")) :=
          mem_alKeys_of_alGet hpar
        have hedge : ∃ gp gc, alGet gmap parent_id = some gp ∧
            alGet gmap (order.getD k "") = some gc ∧ dotAnc gp gc = true := by
          obtain ⟨j, hj, hjk, hpe, hdot⟩ := findBestParent_sound gmap order k _ hfbp
          have h1 := HOrder j hj
          rw [← hpe] at h1
          have h2 := HOrder k hk
          obtain ⟨gp, hgp⟩ := Option.isSome_iff_exists.mp h1
          obtain ⟨gc, hgc⟩ := Option.isSome_iff_exists.mp h2
          refine ⟨gp, gc, hgp, hgc, ?_⟩
          rw [hgp, hgc] at hdot
          simpa only [Option.getD_some] using hdot
        refine ⟨?_, ?_, ?_, ?_, ?_⟩
        · exact alKeys_nodup_alInsert _ _ _ (alKeys_nodup_alRemove _ _ hA)
        · intro p hp
          rcases alInsert_mem_or hp with rfl | hp2
          · exact hpid
          · exact hB p (alRemove_mem hp2)
        · intro x
          show ((alInsert (alRemove st.1 (order.getD k "")) parent_id
              { parent_elem with children := parent_elem.children ++ [child_elem] }).map
                (fun q => UiElement.countId x q.2)).sum ≤ 1
          have hsum1 := sum_alInsert_present (UiElement.countId x) hpkeys
            { parent_elem with children := parent_elem.children ++ [child_elem] }
          have hsum2 := sum_alRemove (UiElement.countId x) hpar
          have hsum3 := sum_alRemove (UiElement.countId x) hchild
          have hnewc : UiElement.countId x
              { parent_elem with children := parent_elem.children ++ [child_elem] } =
              UiElement.countId x parent_elem + UiElement.countId x child_elem := by
            have h4 := countId_snoc_children x parent_elem parent_elem.children child_elem
            rwa [uiElement_update_children_self] at h4
          have := hC x
          omega
        · intro p hp pc hpc
          rcases alInsert_mem_or hp with rfl | hp2
          · rcases edges_snoc_cases parent_elem child_elem hpc with h1 | h1 | h1
            · exact hD _ hparent_mem pc h1
            · subst h1
              simpa only [hpid, hcid] using hedge
            · exact hD _ hchild_mem pc h1
          · exact hD p (alRemove_mem hp2) pc hpc
        · intro p hp nd hnd
          rcases alInsert_mem_or hp with rfl | hp2
          · rcases allNodes_snoc_cases parent_elem child_elem hnd with h1 | h1 | h1
            · subst h1
              have hroot : List.Sublist (parent_elem.children.map (fun c => c.id))
                  ((order.drop (k + 1)).reverse) := by
                have hself : parent_elem ∈ parent_elem.allNodes := by
                  obtain ⟨pi, pt, pcs, ps⟩ := parent_elem
                  simp [UiElement.allNodes]
                exact hE _ hparent_mem parent_elem hself
              show List.Sublist ((parent_elem.children ++ [child_elem]).map (fun c => c.id))
                ((order.drop k).reverse)
              rw [List.map_append, List.drop_eq_getElem_cons hk, List.reverse_cons]
              apply List.Sublist.append hroot
              simp only [List.map_cons, List.map_nil]
              rw [hcid, List.getD_eq_getElem _ _ hk]
            · have hmem : nd ∈ parent_elem.allNodes := by
                obtain ⟨pi, pt, pcs, ps⟩ := parent_elem
                simp only [UiElement.allNodes, List.mem_cons]
                exact .inr h1
              exact (hE _ hparent_mem nd hmem).trans hdropw
            · exact (hE _ hchild_mem nd h1).trans hdropw
          · exact hE' p (alRemove_mem hp2) nd hnd

theorem gInv_fold (gmap : List (String × String)) (order : List String)
    (HOrder : ∀ j, j < order.length → (alGet gmap (order.getD j "")).isSome = true)
    (st₀ : List (String × UiElement) × List (String × Bool))
    (h₀ : GInv gmap order order.length st₀) :
    ∀ m, m ≤ order.length →
      GInv gmap order (order.length - m)
        (((List.range' (order.length - m) m).reverse).foldl
          (assignStep gmap order) st₀) := by
  intro m
  induction m with
  | zero =>
    intro _
    simpa using h₀
  | succ m' ih =>
    intro hm
    have hk : order.length - (m' + 1) < order.length := by omega
    have heq : List.range' (order.length - (m' + 1)) (m' + 1) =
        (order.length - (m' + 1)) :: List.range' (order.length - m') m' := by
      rw [List.range'_succ,
        show order.length - (m' + 1) + 1 = order.length - m' from by omega]
    rw [heq, List.reverse_cons, List.foldl_append]
    simp only [List.foldl_cons, List.foldl_nil]
    have h1 := ih (by omega)
    have h2 : order.length - m' = (order.length - (m' + 1)) + 1 := by omega
    nth_rewrite 1 [h2] at h1
    exact gInv_step gmap order HOrder hk _ h1

theorem gInv_init (sorted : List FlatEntry)
    (hch : ∀ e ∈ sorted, e.element.children = [])
    (hid : ∀ e ∈ sorted, e.element.id = e.full_id) :
    GInv (gmapOf sorted) (fids sorted) (fids sorted).length (emapOf sorted, []) := by
  have hmem : ∀ p ∈ emapOf sorted, ∃ e ∈ sorted, p = (e.full_id, e.element) := by
    intro p hp
    rcases mem_foldl_insert (fun e : FlatEntry => e.full_id) (fun e => e.element)
      sorted [] hp with h | h
    · simp at h
    · exact h
  refine ⟨?_, ?_, ?_, ?_, ?_⟩
  · exact alKeys_foldl_insert_nodup (fun e : FlatEntry => e.full_id)
      (fun e => e.element) sorted [] (by simp [alKeys])
  · intro p hp
    obtain ⟨e, he, rfl⟩ := hmem p hp
    exact hid e he
  · intro x
    have hpt : (emapOf sorted).map (fun q => UiElement.countId x q.2) =
        (emapOf sorted).map (fun p => if p.1 = x then (1 : Nat) else 0) := by
      apply List.map_congr_left
      intro p hp
      obtain ⟨e, he, rfl⟩ := hmem p hp
      rw [countId_eq]
      simp [hch e he, hid e he, countIdForest]
    rw [hpt]
    exact sum_indicator_le_one x _ (alKeys_foldl_insert_nodup
      (fun e : FlatEntry => e.full_id) (fun e => e.element) sorted [] (by simp [alKeys]))
  · intro p hp pc hpc
    obtain ⟨e, he, rfl⟩ := hmem p hp
    have hc := hch e he
    rcases h' : e.element with ⟨ei, et, ecs, es⟩
    rw [h'] at hc hpc
    simp only at hc
    subst hc
    simp [UiElement.edges, edgesForest] at hpc
  · intro p hp nd hnd
    obtain ⟨e, he, rfl⟩ := hmem p hp
    have hc := hch e he
    rcases h' : e.element with ⟨ei, et, ecs, es⟩
    rw [h'] at hc hnd
    simp only at hc
    subst hc
    simp only [UiElement.allNodes, allNodesForest, List.mem_cons, List.not_mem_nil,
      or_false] at hnd
    subst hnd
    simp

theorem sortedForest_structure (sorted : List FlatEntry)
    (hch : ∀ e ∈ sorted, e.element.children = [])
    (hid : ∀ e ∈ sorted, e.element.id = e.full_id) :
    (∀ pc ∈ edgesForest (buildFromSorted sorted),
      ∃ ep ∈ sorted, ∃ ec ∈ sorted,
        pc.1 = ep.full_id ∧ pc.2 = ec.full_id ∧ dotAnc ep.global_id ec.global_id = true) ∧
    (∀ x, countIdForest x (buildFromSorted sorted) ≤ 1) ∧
    (∀ e ∈ allNodesForest (buildFromSorted sorted),
      List.Sublist (e.children.map (fun c => c.id)) ((fids sorted).reverse)) := by
  have hinit := gInv_init sorted hch hid
  have HOrder : ∀ j, j < (fids sorted).length →
      (alGet (gmapOf sorted) ((fids sorted).getD j "")).isSome = true := by
    intro j hj
    have hm : (fids sorted).getD j "" ∈ sorted.map (fun e => e.full_id) := by
      have hj' : j < (sorted.map (fun e => e.full_id)).length := by simpa [fids] using hj
      show (sorted.map (fun e => e.full_id)).getD j "" ∈ sorted.map (fun e => e.full_id)
      rw [List.getD_eq_getElem _ _ hj']
      exact List.getElem_mem _
    exact alGet_foldl_insert_isSome (fun e : FlatEntry => e.full_id)
      (fun e => e.global_id) sorted [] hm
  have hfold := gInv_fold (gmapOf sorted) (fids sorted) HOrder (emapOf sorted, []) hinit
    (fids sorted).length (le_refl _)
  rw [Nat.sub_self] at hfold
  have hbuild : buildFromSorted sorted = collectRoots
      (((List.range' 0 (fids sorted).length).reverse).foldl
        (assignStep (gmapOf sorted) (fids sorted)) (emapOf sorted, [])).2
      (fids sorted)
      (((List.range' 0 (fids sorted).length).reverse).foldl
        (assignStep (gmapOf sorted) (fids sorted)) (emapOf sorted, [])).1 := by
    show collectRoots
      (((List.range (fids sorted).length).reverse).foldl
        (assignStep (gmapOf sorted) (fids sorted)) (emapOf sorted, [])).2
      (fids sorted)
      (((List.range (fids sorted).length).reverse).foldl
        (assignStep (gmapOf sorted) (fids sorted)) (emapOf sorted, [])).1 = _
    rw [List.range_eq_range']
  obtain ⟨hA, hB, hC, hD, hE⟩ := hfold
  refine ⟨?_, ?_, ?_⟩
  · intro pc hpc
    rw [hbuild] at hpc
    obtain ⟨r0, hr0, hpcr⟩ := mem_edgesForest hpc
    obtain ⟨k0, hk0⟩ := collectRoots_val_mem _ _ hr0
    obtain ⟨gp, gc, hgp, hgc, hanc⟩ := hD _ hk0 pc hpcr
    have hsrc1 : ∃ e ∈ sorted, pc.1 = e.full_id ∧ gp = e.global_id := by
      rcases alGet_foldl_insert_src (fun e : FlatEntry => e.full_id)
        (fun e => e.global_id) sorted [] hgp with h | h
      · simp [alGet] at h
      · exact h
    have hsrc2 : ∃ e ∈ sorted, pc.2 = e.full_id ∧ gc = e.global_id := by
      rcases alGet_foldl_insert_src (fun e : FlatEntry => e.full_id)
        (fun e => e.global_id) sorted [] hgc with h | h
      · simp [alGet] at h
      · exact h
    obtain ⟨ep, hep, hp1, hp2⟩ := hsrc1
    obtain ⟨ec, hec, hc1, hc2⟩ := hsrc2
    exact ⟨ep, hep, ec, hec, hp1, hc1, by rw [← hp2, ← hc2]; exact hanc⟩
  · intro x
    rw [hbuild]
    exact le_trans (collectRoots_countId_le x _ _ hA) (hC x)
  · intro e he
    rw [hbuild] at he
    obtain ⟨r0, hr0, hnd⟩ := mem_allNodesForest he
    obtain ⟨k0, hk0⟩ := collectRoots_val_mem _ _ hr0
    have h := hE _ hk0 e hnd
    rwa [List.drop_zero] at h

/-- C6: for every input record list, the forest `build_element_tree` returns is
structurally sound: (i) every parent/child edge joins the nodes of two input
records whose global ids are in the dotted strict-ancestor relation — the parent's
dot depth is strictly smaller than the child's, so the edge relation admits no
cycles; (ii) each composite id occurs on at most one node of the forest; (iii) each
id occurrence is either a root or the child end of exactly one edge, so every
non-root node sits in exactly one children list; (iv) every children list is a
subsequence of the assignment pass's processing order (the reverse of the sorted
composite-id order), not geometric or alphabetic order. -/
theorem C6_forest_structure (w : String) (l : List InspectorElementInfo) :
    (∀ pc ∈ edgesForest (build_element_tree w l),
      ∃ rp ∈ l, ∃ rc ∈ l,
        pc.1 = fullId w rp.global_id rp.instance_id ∧
        pc.2 = fullId w rc.global_id rc.instance_id ∧
        dotAnc rp.global_id rc.global_id = true ∧
        dotCount rp.global_id < dotCount rc.global_id) ∧
    (∀ x, countIdForest x (build_element_tree w l) ≤ 1) ∧
    (∀ x, edgesTo x (build_element_tree w l) + rootCount x (build_element_tree w l) =
      countIdForest x (build_element_tree w l)) ∧
    (∀ e ∈ allNodesForest (build_element_tree w l),
      List.Sublist (e.children.map (fun c => c.id)) ((sortedIds w l).reverse)) := by
  obtain ⟨h1, h2, h3⟩ := sortedForest_structure (stSort entryLt (l.map (mkFlatEntry w)))
    (build_children_nil w l) (build_element_id w l)
  refine ⟨?_, h2, fun x => edgesTo_add_rootCount x _, h3⟩
  intro pc hpc
  obtain ⟨ep, hep, ec, hec, hp1, hc1, hanc⟩ := h1 pc hpc
  obtain ⟨rp, hrp, rfl⟩ := List.mem_map.mp ((stSort_perm entryLt _).mem_iff.mp hep)
  obtain ⟨rc, hrc, rfl⟩ := List.mem_map.mp ((stSort_perm entryLt _).mem_iff.mp hec)
  exact ⟨rp, hrp, rc, hrc, hp1, hc1, hanc, dotAnc_dotCount hanc⟩

/-- C10: for every input record list whose composite ids `window_id/global_id[instance_id]`
are pairwise distinct, `build_element_tree` neither drops nor duplicates records: the
total number of `UiElement` nodes in the returned forest equals the number of input
records, and each input record's composite id appears exactly once in the forest. -/
theorem C10_no_drop_no_dup (w : String) (l : List InspectorElementInfo)
    (hnd : (l.map (fun r => fullId w r.global_id r.instance_id)).Nodup) :
    totalNodesForest (build_element_tree w l) = l.length ∧
    ∀ r ∈ l, countIdForest (fullId w r.global_id r.instance_id)
        (build_element_tree w l) = 1 := by
  have heq := build_element_tree_eq_specForest w l hnd
  have hsrt := stSort_pairwise (l.map (mkFlatEntry w))
  have hlen : (stSort entryLt (l.map (mkFlatEntry w))).length = l.length := by
    rw [(stSort_perm entryLt _).length_eq, List.length_map]
  have hfperm : (fids (stSort entryLt (l.map (mkFlatEntry w)))).Perm
      (l.map (fun r => fullId w r.global_id r.instance_id)) := by
    rw [fids]
    refine ((stSort_perm entryLt _).map _).trans ?_
    rw [List.map_map]
    exact List.Perm.rfl
  constructor
  · rw [heq, totalNodesForest_eq_sum,
      specForest_measure_sum _ hsrt _ totalNodes_snoc_children]
    have h1 : ∀ i ∈ Finset.range (stSort entryLt (l.map (mkFlatEntry w))).length,
        UiElement.totalNodes
          { ((stSort entryLt (l.map (mkFlatEntry w))).getD i default).element with
            children := ([] : List UiElement) } = 1 := by
      intro i _
      simp [UiElement.totalNodes, totalNodesForest]
    rw [Finset.sum_congr rfl h1, Finset.sum_const, smul_eq_mul, mul_one,
      Finset.card_range, hlen]
  · intro r hr
    rw [heq, countIdForest_eq_sum,
      specForest_measure_sum _ hsrt _
        (countId_snoc_children (fullId w r.global_id r.instance_id))]
    have h2 : ∀ i ∈ Finset.range (stSort entryLt (l.map (mkFlatEntry w))).length,
        UiElement.countId (fullId w r.global_id r.instance_id)
          { ((stSort entryLt (l.map (mkFlatEntry w))).getD i default).element with
            children := ([] : List UiElement) } =
          if (fids (stSort entryLt (l.map (mkFlatEntry w)))).getD i "" =
              fullId w r.global_id r.instance_id then 1 else 0 := by
      intro i hi
      have hi' : i < (stSort entryLt (l.map (mkFlatEntry w))).length :=
        Finset.mem_range.mp hi
      rw [List.getD_eq_getElem _ _ hi']
      have hid := build_element_id w l _
        (List.getElem_mem (l := stSort entryLt (l.map (mkFlatEntry w))) hi')
      have hfid : (fids (stSort entryLt (l.map (mkFlatEntry w)))).getD i "" =
          (stSort entryLt (l.map (mkFlatEntry w)))[i].full_id := by
        rw [fids, List.getD_eq_getElem _ _ (by simpa using hi'), List.getElem_map]
      rw [hfid]
      simp [UiElement.countId, countIdForest, hid]
    rw [Finset.sum_congr rfl h2,
      show (stSort entryLt (l.map (mkFlatEntry w))).length =
        (fids (stSort entryLt (l.map (mkFlatEntry w)))).length from by simp [fids],
      sum_indicator_eq_count, hfperm.count_eq]
    exact List.count_eq_one_of_mem hnd (List.mem_map.mpr ⟨r, hr, rfl⟩)

/-- Witness for C10 at a concrete three-record input. -/
theorem C10_no_drop_no_dup_witness :
    totalNodesForest (build_element_tree "w" [⟨"a.b", 2, "g.rs"⟩, ⟨"a", 1, "f.rs"⟩]) = 2 ∧
    ∀ r ∈ ([⟨"a.b", 2, "g.rs"⟩, ⟨"a", 1, "f.rs"⟩] : List InspectorElementInfo),
      countIdForest (fullId "w" r.global_id r.instance_id)
        (build_element_tree "w" [⟨"a.b", 2, "g.rs"⟩, ⟨"a", 1, "f.rs"⟩]) = 1 :=
  C10_no_drop_no_dup "w" [⟨"a.b", 2, "g.rs"⟩, ⟨"a", 1, "f.rs"⟩] (by decide)

/-! ## Duplicate global ids: two roots, one attachment -/

theorem perm2_cases {α : Type} {y z b c : α} (h : ([b, c] : List α).Perm [y, z]) :
    (b = y ∧ c = z) ∨ (b = z ∧ c = y) := by
  have hb : b = y ∨ b = z := by
    have := h.subset (List.mem_cons_self b [c])
    simpa using this
  rcases hb with rfl | rfl
  · have h2 := h.cons_inv
    rw [List.perm_singleton] at h2
    simp only [List.cons.injEq, and_true] at h2
    exact .inl ⟨rfl, h2⟩
  · have h2 := (h.trans (List.Perm.swap b y [])).cons_inv
    rw [List.perm_singleton] at h2
    simp only [List.cons.injEq, and_true] at h2
    exact .inr ⟨rfl, h2⟩

theorem perm3_cases {α : Type} {x1 x2 x3 : α} {l : List α} (hp : l.Perm [x1, x2, x3]) :
    l = [x1, x2, x3] ∨ l = [x1, x3, x2] ∨ l = [x2, x1, x3] ∨
    l = [x2, x3, x1] ∨ l = [x3, x1, x2] ∨ l = [x3, x2, x1] := by
  have h3 : l.length = 3 := hp.length_eq
  rcases l with _ | ⟨a, l⟩
  · simp at h3
  rcases l with _ | ⟨b, l⟩
  · simp at h3
  rcases l with _ | ⟨c, l⟩
  · simp at h3
  rcases l with _ | ⟨d, l⟩
  · have ha : a = x1 ∨ a = x2 ∨ a = x3 := by
      have := hp.subset (List.mem_cons_self a [b, c])
      simpa using this
    have hswap12 : ([x1, x2, x3] : List α).Perm [x2, x1, x3] := List.Perm.swap x2 x1 [x3]
    have hrot : ([x1, x2, x3] : List α).Perm [x3, x1, x2] :=
      ((List.Perm.swap x3 x2 []).cons x1).trans (List.Perm.swap x3 x1 [x2])
    rcases ha with rfl | rfl | rfl
    · rcases perm2_cases hp.cons_inv with ⟨rfl, rfl⟩ | ⟨rfl, rfl⟩
      · exact .inl rfl
      · exact .inr (.inl rfl)
    · rcases perm2_cases (hp.trans hswap12).cons_inv with ⟨rfl, rfl⟩ | ⟨rfl, rfl⟩
      · exact .inr (.inr (.inl rfl))
      · exact .inr (.inr (.inr (.inl rfl)))
    · rcases perm2_cases (hp.trans hrot).cons_inv with ⟨rfl, rfl⟩ | ⟨rfl, rfl⟩
      · exact .inr (.inr (.inr (.inr (.inl rfl))))
      · exact .inr (.inr (.inr (.inr (.inr rfl))))
  · simp only [List.length_cons] at h3
    omega

theorem twoRootsOneChild (w : String) (ia ib ic : Nat) (sa sb sc : String)
    (hab : ia ≠ ib) (l : List InspectorElementInfo)
    (hs : stSort entryLt (l.map (mkFlatEntry w)) =
      [mkFlatEntry w ⟨"a", ia, sa⟩, mkFlatEntry w ⟨"a", ib, sb⟩,
       mkFlatEntry w ⟨"a.b", ic, sc⟩]) :
    (build_element_tree w l).map (fun e => (e.id, e.children.map (fun c => c.id))) =
      [(fullId w "a" ia, [fullId w "a.b" ic]), (fullId w "a" ib, [])] := by
  have hfne : ∀ (g g' : String) (i i' : Nat), g ≠ g' → fullId w g i ≠ fullId w g' i' := by
    intro g g' i i' hne heq
    exact hne (fullId_inj heq).1
  have hfne2 : fullId w "a" ia ≠ fullId w "a" ib := by
    intro heq
    exact hab (fullId_inj heq).2
  have hsrt := stSort_pairwise (l.map (mkFlatEntry w))
  have hnd : (fids (stSort entryLt (l.map (mkFlatEntry w)))).Nodup := by
    rw [hs]
    show List.Pairwise (fun a b => a ≠ b)
      [fullId w "a" ia, fullId w "a" ib, fullId w "a.b" ic]
    refine .cons ?_ (.cons ?_ (.cons ?_ .nil))
    · intro b hb
      simp only [List.mem_cons, List.not_mem_nil, or_false] at hb
      rcases hb with rfl | rfl
      · exact hfne2
      · exact hfne _ _ _ _ (by decide)
    · intro b hb
      simp only [List.mem_cons, List.not_mem_nil, or_false] at hb
      rcases hb with rfl
      exact hfne _ _ _ _ (by decide)
    · intro b hb
      simp at hb
  have hch : ∀ e ∈ stSort entryLt (l.map (mkFlatEntry w)), e.element.children = [] := by
    rw [hs]
    intro e he
    simp only [List.mem_cons, List.not_mem_nil, or_false] at he
    rcases he with rfl | rfl | rfl <;> rfl
  have hbld : build_element_tree w l =
      specForest (stSort entryLt (l.map (mkFlatEntry w))) :=
    buildFromSorted_eq_specForest _ hnd hsrt hch
  rw [hbld, hs]
  rw [specForest]
  have hG : ([mkFlatEntry w ⟨"a", ia, sa⟩, mkFlatEntry w ⟨"a", ib, sb⟩,
      mkFlatEntry w ⟨"a.b", ic, sc⟩].map (·.global_id)) = ["a", "a", "a.b"] := rfl
  rw [hG]
  rw [show ([mkFlatEntry w ⟨"a", ia, sa⟩, mkFlatEntry w ⟨"a", ib, sb⟩,
      mkFlatEntry w ⟨"a.b", ic, sc⟩] : List FlatEntry).length = 3 from rfl]
  rw [show (List.range 3).filter
      (fun i => bestParentIdx ["a", "a", "a.b"] i == none) = [0, 1] from by decide]
  have hc0 : specChildIdxs ["a", "a", "a.b"] 0 = [2] := by decide
  have hc1 : specChildIdxs ["a", "a", "a.b"] 1 = [] := by decide
  have hc2 : specChildIdxs ["a", "a", "a.b"] 2 = [] := by decide
  have hu : ∀ i : Nat, specSubtree [mkFlatEntry w ⟨"a", ia, sa⟩,
      mkFlatEntry w ⟨"a", ib, sb⟩, mkFlatEntry w ⟨"a.b", ic, sc⟩] i =
      { (([mkFlatEntry w ⟨"a", ia, sa⟩, mkFlatEntry w ⟨"a", ib, sb⟩,
          mkFlatEntry w ⟨"a.b", ic, sc⟩] : List FlatEntry).getD i default).element with
        children := (specChildIdxs ["a", "a", "a.b"] i).map
          (specSubtree [mkFlatEntry w ⟨"a", ia, sa⟩, mkFlatEntry w ⟨"a", ib, sb⟩,
            mkFlatEntry w ⟨"a.b", ic, sc⟩]) } := by
    intro i
    rw [specSubtree, List.attach_map_val, hG]
  simp only [List.map_cons, List.map_nil]
  rw [hu 0, hu 1, hc0, hc1, List.map_cons, List.map_nil, hu 2, hc2, List.map_nil]
  rfl

/-- C5: for an input of two records with global id "a" and distinct instance ids plus
one record with global id "a.b", in any input order, the forest has exactly the two
"a" elements as roots (in input order of the two "a" records) and the "a.b" element
is not a root: it is the sole child of one of the two "a" roots. -/
theorem C5_two_roots_child_attached (w : String) (i1 i2 i3 : Nat) (s1 s2 s3 : String)
    (h12 : i1 ≠ i2) (l : List InspectorElementInfo)
    (hp : l.Perm [⟨"a", i1, s1⟩, ⟨"a", i2, s2⟩, ⟨"a.b", i3, s3⟩]) :
    (build_element_tree w l).map (fun e => (e.id, e.children.map (fun c => c.id))) =
      [(fullId w "a" i1, [fullId w "a.b" i3]), (fullId w "a" i2, [])] ∨
    (build_element_tree w l).map (fun e => (e.id, e.children.map (fun c => c.id))) =
      [(fullId w "a" i2, [fullId w "a.b" i3]), (fullId w "a" i1, [])] := by
  rcases perm3_cases hp with rfl | rfl | rfl | rfl | rfl | rfl
  · exact .inl (twoRootsOneChild w i1 i2 i3 s1 s2 s3 h12 _ rfl)
  · exact .inl (twoRootsOneChild w i1 i2 i3 s1 s2 s3 h12 _ rfl)
  · exact .inr (twoRootsOneChild w i2 i1 i3 s2 s1 s3 (Ne.symm h12) _ rfl)
  · exact .inr (twoRootsOneChild w i2 i1 i3 s2 s1 s3 (Ne.symm h12) _ rfl)
  · exact .inl (twoRootsOneChild w i1 i2 i3 s1 s2 s3 h12 _ rfl)
  · exact .inr (twoRootsOneChild w i2 i1 i3 s2 s1 s3 (Ne.symm h12) _ rfl)

/-- Witness for C5 at a concrete shuffled input. -/
theorem C5_two_roots_child_attached_witness :
    (build_element_tree "w" [⟨"a.b", 3, "h.rs"⟩, ⟨"a", 1, "f.rs"⟩, ⟨"a", 2, "g.rs"⟩]).map
        (fun e => (e.id, e.children.map (fun c => c.id))) =
      [(fullId "w" "a" 1, [fullId "w" "a.b" 3]), (fullId "w" "a" 2, [])] ∨
    (build_element_tree "w" [⟨"a.b", 3, "h.rs"⟩, ⟨"a", 1, "f.rs"⟩, ⟨"a", 2, "g.rs"⟩]).map
        (fun e => (e.id, e.children.map (fun c => c.id))) =
      [(fullId "w" "a" 2, [fullId "w" "a.b" 3]), (fullId "w" "a" 1, [])] :=
  C5_two_roots_child_attached "w" 1 2 3 "f.rs" "g.rs" "h.rs" (by decide) _ (by decide)

end Mcp
